import Mathlib

/-!
Verification of the job normalization and filtering pipeline of
src/utils/data_processor.py, shallowly embedded in Lean.

Modelling conventions:
- DataFrames are lists of records; boolean-mask filtering with reset_index
  is List.filter; row order is preserved as pandas does.
- Strings are ASCII (the repository data is ASCII); Python str.lower,
  str.strip, str.split and the regexes are modelled character-wise.
- Python floats only appear in the threshold comparisons
  mask.sum() < len * 0.5 and max(10, len * 0.5); both are exact in
  binary floating point, and are rendered with integers:
  2 * sum < len, and sum < max 10 (len / 2) as 2 * sum < max 20 len.
- datetime is modelled as an Int timestamp in seconds; now is a parameter.
  datetime.now() is read more than once by the source within one filter
  run; the calls are microseconds apart and are modelled as a single
  instant.
-/

/-! ## Character and string primitives (Python semantics, ASCII) -/

def isSpaceC (c : Char) : Bool :=
  c = (' ') || c = ('\t') || c = ('\n') || c = ('\r') || c = ('\x0b') || c = ('\x0c')

def isDigitC (c : Char) : Bool :=
  ('0') ≤ c && c ≤ ('9')

/-- Python \w on ASCII: letters, digits, underscore. -/
def isWordC (c : Char) : Bool :=
  (('a') ≤ c && c ≤ ('z')) || (('A') ≤ c && c ≤ ('Z')) || isDigitC c || c = ('_')

/-- The uppercase-to-lowercase table of ASCII. -/
def upperLower : List (Char × Char) :=
  [(('A'), ('a')), (('B'), ('b')), (('C'), ('c')), (('D'), ('d')), (('E'), ('e')),
   (('F'), ('f')), (('G'), ('g')), (('H'), ('h')), (('I'), ('i')), (('J'), ('j')),
   (('K'), ('k')), (('L'), ('l')), (('M'), ('m')), (('N'), ('n')), (('O'), ('o')),
   (('P'), ('p')), (('Q'), ('q')), (('R'), ('r')), (('S'), ('s')), (('T'), ('t')),
   (('U'), ('u')), (('V'), ('v')), (('W'), ('w')), (('X'), ('x')), (('Y'), ('y')),
   (('Z'), ('z'))]

/-- Python str.lower on ASCII, as a table lookup. -/
def lowerC (c : Char) : Char :=
  match upperLower.find? fun p => p.fst = c with
  | some p => p.snd
  | none => c

def pyLower (s : String) : String := ⟨s.data.map lowerC⟩

/-- Python str.strip on a character list: drop whitespace at both ends. -/
def pyStripL (l : List Char) : List Char :=
  ((l.dropWhile isSpaceC).reverse.dropWhile isSpaceC).reverse

def pyStripS (s : String) : String := ⟨pyStripL s.data⟩

/-- Boolean infix test on character lists. -/
def isInfixB (needle : List Char) : List Char → Bool
  | [] => needle.isEmpty
  | c :: cs => needle.isPrefixOf (c :: cs) || isInfixB needle cs

/-- Python substring containment: needle in hay. -/
def pyContains (hay needle : String) : Bool :=
  isInfixB needle.data hay.data

def pyStartsWith (s pre : String) : Bool :=
  pre.data.isPrefixOf s.data

/-- Python str.split() with no argument: split on whitespace runs, no
empty tokens.  cur holds the current token reversed. -/
def pySplitGo : List Char → List Char → List String
  | cur, [] => if cur.isEmpty then [] else [⟨cur.reverse⟩]
  | cur, c :: cs =>
    if isSpaceC c then
      if cur.isEmpty then pySplitGo [] cs else ⟨cur.reverse⟩ :: pySplitGo [] cs
    else pySplitGo (c :: cur) cs

def pySplit (s : String) : List String := pySplitGo [] s.data

/-- Python str.replace of each comma by a comma and a space, as used for
location cleanup. -/
def commaSpace (l : List Char) : List Char :=
  l.flatMap fun c => if c = (',') then [(','), (' ')] else [c]

/-- Python str.replace of space by plus, used when synthesizing fallback links. -/
def plusify (s : String) : String :=
  ⟨s.data.map fun c => if c = (' ') then ('+') else c⟩

/-- Value of a run of decimal digit characters. -/
def valDigits (l : List Char) : Nat :=
  l.foldl (fun a c => 10 * a + (c.toNat - 48)) 0

/-- re.search for a digit-run group: the value of the first maximal digit run. -/
def findFirstNum : List Char → Option Nat
  | [] => none
  | c :: cs =>
    if isDigitC c then some (valDigits (c :: cs.takeWhile isDigitC))
    else findFirstNum cs

/-- re.search for patterns of the form (\d+)\s*TAIL: scan left to right
for a digit run followed, after optional whitespace, by a tail accepted
by after; return the value of the captured run.  Backtracking inside the
greedy \d+ and \s* cannot produce a match when the greedy attempt
fails (the next character would be a digit or a space where the tail
literal is required), so this scan is equivalent to the regex. -/
def searchNumThen (after : List Char → Bool) : List Char → Option Nat
  | [] => none
  | c :: cs =>
    if isDigitC c then
      if after ((cs.dropWhile isDigitC).dropWhile isSpaceC) then
        some (valDigits (c :: cs.takeWhile isDigitC))
      else searchNumThen after cs
    else searchNumThen after cs

/-! ## The record types -/

/-- A raw job record as handed to process_jobs: title, company, location
and date may be missing (pandas NaN, modelled as none).  The link and
source columns are never filled by process_jobs and the source code
assumes they are strings, so they are modelled as strings. -/
structure RawJob where
  title : Option String
  company : Option String
  location : Option String
  date : Option String
  link : String
  source : String
deriving DecidableEq

/-- A normalized job record: all six fields present. -/
structure Job where
  title : String
  company : String
  location : String
  date : String
  link : String
  source : String
deriving DecidableEq

/-! ## sort_jobs_by_date (lines 336-378): recency score and ranking -/

/-- recency_score (data_processor.py lines 350-372). -/
def recency_score (s : String) : Int :=
  let d := pyLower s
  if pyContains d ("just now") || pyContains d ("few minutes") || pyContains d ("moments ago") then
    1000
  else if pyContains d ("hour") then
    match findFirstNum s.data with
    | some h => 900 - (h : Int)
    | none => 800
  else if pyContains d ("today") then 700
  else if pyContains d ("yesterday") || pyContains d ("1 day") then 600
  else if pyContains d ("day") then
    match findFirstNum s.data with
    | some n => 500 - (n : Int)
    | none => 400
  else if pyContains d ("week") || pyContains d ("within last 7 days") then 300
  else 0

/-- Stable insertion into an ascending run: an element is placed after
all existing elements of less-or-equal key. -/
def insertAscBy {α : Type} (key : α → Int) (x : α) : List α → List α
  | [] => [x]
  | y :: ys => if key y ≤ key x then y :: insertAscBy key x ys else x :: y :: ys

/-- Stable ascending sort by key (insertion sort).  The numpy quicksort
(introsort) runs as a stable insertion sort on the partition sizes that
occur here (fewer than 17 rows), which is the regime all concrete
statements below use. -/
def stableAscBy {α : Type} (key : α → Int) (l : List α) : List α :=
  l.foldl (fun acc x => insertAscBy key x acc) []

/-- sort_jobs_by_date (lines 336-378).  pandas sort_values with
ascending=False computes the stable ascending argsort of the score
column and reverses it (pandas.core.sorting.nargsort), so the row
order is the reverse of the stable ascending order. -/
def sort_jobs_by_date (jobs : List Job) : List Job :=
  if jobs.length = 0 then jobs
  else (stableAscBy (fun j => recency_score j.date) jobs).reverse

/-! ## Field Normalizer: enrich_job_data (lines 381-433) -/

/-- First link pass (lines 395-398): keep a link only when non-empty and
carrying an http(s) scheme prefix, otherwise blank it. -/
def enrichLink1 (link : String) : String :=
  if link ≠ "" ∧ (pyStartsWith link ("http://") = true ∨ pyStartsWith link ("https://") = true)
  then link else ("")

/-- generate_fallback_link (lines 401-419): source-specific search URL
from title, company and location with spaces replaced by plus signs. -/
def fallbackLink (j : Job) : String :=
  let company := plusify j.company
  let title := plusify j.title
  let location := plusify j.location
  if j.source = "Indeed" then
    ("https://in.indeed.com/jobs?q=") ++ title ++ ("+") ++ company ++ ("&l=") ++ location
  else if j.source = "Naukri" then
    ("https://www.naukri.com/jobs-in-") ++ location ++ ("?keywordsearch=") ++ title
  else if j.source = "LinkedIn" then
    ("https://www.linkedin.com/jobs/search/?keywords=") ++ title ++ ("&location=") ++ location
  else if j.source = "Foundit" then
    ("https://www.foundit.in/srp/results?keyword=") ++ title ++ ("&location=") ++ location
  else
    ("https://www.google.com/search?q=") ++ title ++ ("+") ++ company ++ ("+jobs+in+") ++ location

/-- Second link pass (lines 401-421): links that are empty or shorter
than 10 characters are replaced by the synthesized fallback. -/
def enrichLink2 (j : Job) : String :=
  if j.link = "" ∨ j.link.length < 10 then fallbackLink j else j.link

/-- re.sub of the non-greedy pattern backslash-open-paren dot-star
backslash-close-paren with empty replacement (line 425), as a single
left-to-right scan.  In the pending state buf holds, in order, the
characters from the nearest unmatched open parenthesis onwards; the
regex dot does not cross a newline, so a newline flushes the buffer
literally, and a close parenthesis discards it (the leftmost match
runs from the first buffered open parenthesis to this close). -/
def rpGo : List Char → Option (List Char) → List Char
  | [], none => []
  | [], some buf => buf
  | c :: cs, none =>
    if c = ('(') then rpGo cs (some [('(')]) else c :: rpGo cs none
  | c :: cs, some buf =>
    if c = (')') then rpGo cs none
    else if c = ('\n') then buf ++ ('\n') :: rpGo cs none
    else rpGo cs (some (buf ++ [c]))

/-- Company cleanup (lines 424-426): strip parenthesized substrings,
then strip whitespace. -/
def cleanCompany (c : String) : String := pyStripS ⟨rpGo c.data none⟩

/-- Location cleanup (lines 429-431): replace each comma by a comma and
a space, then strip whitespace. -/
def cleanLocation (l : String) : String := pyStripS ⟨commaSpace l.data⟩

/-- enrich_job_data (lines 381-433) on one row: two link passes, then
company cleanup, then location cleanup.  The fallback link is built
from the company and location as they are before their cleanups,
exactly as the source orders the column assignments. -/
def enrichJob (j : Job) : Job :=
  let j1 : Job := { j with link := enrichLink1 j.link }
  let j2 : Job := { j1 with link := enrichLink2 j1 }
  { j2 with company := cleanCompany j2.company, location := cleanLocation j2.location }

/-- fillna of location, date and company (process_jobs lines 458-460)
together with the empty-title drop (line 463), per row: missing
location becomes Bangalore, missing date becomes Recent, missing
company becomes Unknown; a missing or empty title drops the row.
fillna touches only missing values: empty strings pass through. -/
def normalizeRecord (r : RawJob) : Option Job :=
  match r.title with
  | none => none
  | some t =>
    if t = "" then none
    else some ⟨t, r.company.getD ("Unknown"), r.location.getD ("Bangalore"),
               r.date.getD ("Recent"), r.link, r.source⟩

/-- Normalization of one raw record as specified in section 4.1:
defaulting, title drop, then field repair and cleanup. -/
def normalizeFull (r : RawJob) : Option Job :=
  (normalizeRecord r).map enrichJob

/-! ## Deduplicator: remove_duplicates (lines 309-333) -/

/-- Lowercase and drop characters that are neither word nor whitespace
(re.sub of the class complement of word-or-space, line 323-324). -/
def cleanStr (s : String) : String :=
  ⟨(pyLower s).data.filter fun c => isWordC c || isSpaceC c⟩

def dedupKey (j : Job) : String × String := (cleanStr j.title, cleanStr j.company)

/-- drop_duplicates on the cleaned title and company columns with the
default keep-first policy (line 328). -/
def dedupGo (seen : List (String × String)) : List Job → List Job
  | [] => []
  | x :: xs =>
    if dedupKey x ∈ seen then dedupGo seen xs
    else x :: dedupGo (dedupKey x :: seen) xs

def remove_duplicates (jobs : List Job) : List Job :=
  if jobs.length = 0 then jobs else dedupGo [] jobs

/-! ## Keyword filter: filter_jobs_by_keywords (lines 8-56) -/

/-- Strict keyword mask (lines 31-38): keyword in title or company, or
some whitespace-separated word of the title occurs inside the keyword. -/
def kwStrictPred (keywords : List String) (j : Job) : Bool :=
  (keywords.map pyLower).any fun kw =>
    pyContains (pyLower j.title) kw || pyContains (pyLower j.company) kw ||
    ((pySplit (pyLower j.title)).any fun k => pyContains kw k)

def commonTerms : List String :=
  ["analyst", "manager", "finance", "banking", "reporting", "risk",
   "compliance", "operations", "investment", "associate"]

/-- Lenient keyword mask (lines 44-49): a fixed list of role terms in
the title. -/
def kwLenientPred (j : Job) : Bool :=
  commonTerms.any fun term => pyContains (pyLower j.title) term

/-- filter_jobs_by_keywords.  mask.sum() < max(10, len*0.5) is the
exact integer rendering 2*sum < max 20 len; the final guard returns
the whole set when the chosen mask keeps nothing. -/
def filter_jobs_by_keywords (jobs : List Job) (keywords : List String) : List Job :=
  if jobs.length = 0 then jobs
  else if jobs.length < 15 then jobs
  else
    let strictCnt := (jobs.filter (kwStrictPred keywords)).length
    let pred := if 2 * strictCnt < max 20 jobs.length then kwLenientPred
                else kwStrictPred keywords
    if (jobs.filter pred).length = 0 then jobs else jobs.filter pred

/-! ## Location filter: filter_jobs_by_location (lines 97-156) -/

def remoteTerms : List String :=
  ["remote", "hybrid", "work from home", "wfh", "anywhere", "india", "pan india"]

/-- Location variations (lines 116-131): each configured location plus
Bangalore synonyms, then the remote terms that are not substrings of
any variation collected so far. -/
def locVariations (locations : List String) : List String :=
  let vars := (locations.map pyLower).flatMap fun loc =>
    loc :: (if pyContains loc ("bangalore") then ["bengaluru", "blr", "bangalore", "bengalore"]
            else if pyContains loc ("bengaluru") then ["bangalore", "blr", "bengalore"]
            else [])
  vars ++ remoteTerms.filter fun term => ! vars.any fun loc => pyContains loc term

/-- Strict location mask (lines 134-139). -/
def locStrictPred (vars : List String) (j : Job) : Bool :=
  vars.any (fun location => pyContains (pyLower j.location) location)
  || pyContains (pyLower j.title) ("remote")
  || pyContains (pyLower j.title) ("hybrid")

def locLenientTerms : List String :=
  ["india", "bangalore", "bengaluru", "remote", "hybrid", "anywhere"]

/-- Lenient location mask (lines 145-149): India-flavored terms, or an
empty location. -/
def locLenientPred (j : Job) : Bool :=
  let low := pyLower j.location
  locLenientTerms.any (fun term => pyContains low term) || decide (low = "")

/-- filter_jobs_by_location.  Note the final guard (line 152) fires only
for working sets strictly larger than 15 although the filter already
runs at size 15 (line 112 skips only below 15). -/
def filter_jobs_by_location (jobs : List Job) (locations : List String) : List Job :=
  if jobs.length = 0 then jobs
  else if jobs.length < 15 then jobs
  else
    let vars := locVariations locations
    let strictCnt := (jobs.filter (locStrictPred vars)).length
    let pred := if 2 * strictCnt < max 20 jobs.length then locLenientPred
                else locStrictPred vars
    if (jobs.filter pred).length < 10 ∧ 15 < jobs.length then jobs
    else jobs.filter pred

/-! ## Date Interpreter: parse_date_string (lines 159-232)

Timestamps are Int seconds on a single timeline; relative phrases are
offsets from the caller-supplied now, absolute formats convert through
civil-calendar arithmetic to seconds on the same timeline. -/

/-- Exactly four digits of a year, as the strptime directive demands. -/
def eatYear4 : List Char → Option (Nat × List Char)
  | a :: b :: c :: d :: rest =>
    if isDigitC a && isDigitC b && isDigitC c && isDigitC d then
      some (valDigits [a, b, c, d], rest)
    else none
  | _ => none

/-- One or two digits whose value lies in [lo, hi].  The strptime
alternations for day, month, hour, minute and second all take the
maximal run of at most two digits; backtracking to one digit can never
rescue a parse because every following format item here is a non-digit
literal. -/
def eatNum2 (lo hi : Nat) : List Char → Option (Nat × List Char)
  | a :: b :: rest =>
    if isDigitC a then
      if isDigitC b then
        let v := valDigits [a, b]
        if lo ≤ v ∧ v ≤ hi then some (v, rest) else none
      else
        let v := valDigits [a]
        if lo ≤ v ∧ v ≤ hi then some (v, b :: rest) else none
    else none
  | [a] =>
    if isDigitC a then
      let v := valDigits [a]
      if lo ≤ v ∧ v ≤ hi then some (v, []) else none
    else none
  | [] => none

def eatC (c : Char) : List Char → Option (List Char)
  | [] => none
  | x :: xs => if x = c then some xs else none

/-- One or more whitespace characters (a whitespace run in a strptime
format matches like a regex whitespace-plus). -/
def eatWs : List Char → Option (List Char)
  | [] => none
  | c :: cs => if isSpaceC c then some (cs.dropWhile isSpaceC) else none

def eatLit : List Char → List Char → Option (List Char)
  | lit, l => if lit.isPrefixOf l then some (l.drop lit.length) else none

/-- Match one name from a list (month or weekday names, already
lowercase since strptime matches case-insensitively and the input was
lowercased); returns the 1-based index. -/
def eatNameIn : List String → Nat → List Char → Option (Nat × List Char)
  | [], _, _ => none
  | n :: ns, i, l =>
    if n.data.isPrefixOf l then some (i, l.drop n.data.length)
    else eatNameIn ns (i + 1) l

def monthsAbbr : List String :=
  ["jan", "feb", "mar", "apr", "may", "jun", "jul", "aug", "sep", "oct", "nov", "dec"]

def monthsFull : List String :=
  ["january", "february", "march", "april", "may", "june", "july",
   "august", "september", "october", "november", "december"]

def weekAbbr : List String :=
  ["mon", "tue", "wed", "thu", "fri", "sat", "sun"]

def isLeap (y : Nat) : Bool :=
  y % 4 = 0 && (y % 100 ≠ 0 || y % 400 = 0)

def daysInMonth (y m : Nat) : Nat :=
  if m = 2 then (if isLeap y then 29 else 28)
  else if m = 4 ∨ m = 6 ∨ m = 9 ∨ m = 11 then 30
  else 31

/-- Civil date to days since 1970-01-01 (standard era arithmetic). -/
def civilDays (y m d : Nat) : Int :=
  let y' := if m ≤ 2 then y - 1 else y
  let era := y' / 400
  let yoe := y' % 400
  let mp := if 2 < m then m - 3 else m + 9
  let doy := (153 * mp + 2) / 5 + d - 1
  let doe := yoe * 365 + yoe / 4 - yoe / 100 + doy
  ((era * 146097 + doe : Nat) : Int) - 719468

/-- datetime validation: year at least 1, day within the month, second
at most 59 (a regex-accepted leap second still fails the datetime
constructor); then conversion to seconds. -/
def mkStamp (y mo d hh mi ss : Nat) : Option Int :=
  if 1 ≤ y ∧ 1 ≤ d ∧ d ≤ daysInMonth y mo ∧ ss ≤ 59 then
    some (civilDays y mo d * 86400 + (hh * 3600 + mi * 60 + ss : Nat))
  else none

/-- strptime format 1, 2023-04-22. -/
def fmtYmdDash (l : List Char) : Option Int := do
  let (y, l) ← eatYear4 l
  let l ← eatC ('-') l
  let (mo, l) ← eatNum2 1 12 l
  let l ← eatC ('-') l
  let (d, l) ← eatNum2 1 31 l
  if l = [] then mkStamp y mo d 0 0 0 else none

/-- strptime format 22/04/2023. -/
def fmtDmySlash (l : List Char) : Option Int := do
  let (d, l) ← eatNum2 1 31 l
  let l ← eatC ('/') l
  let (mo, l) ← eatNum2 1 12 l
  let l ← eatC ('/') l
  let (y, l) ← eatYear4 l
  if l = [] then mkStamp y mo d 0 0 0 else none

/-- strptime format 04/22/2023. -/
def fmtMdySlash (l : List Char) : Option Int := do
  let (mo, l) ← eatNum2 1 12 l
  let l ← eatC ('/') l
  let (d, l) ← eatNum2 1 31 l
  let l ← eatC ('/') l
  let (y, l) ← eatYear4 l
  if l = [] then mkStamp y mo d 0 0 0 else none

/-- strptime formats Apr 22, 2023 and April 22, 2023, with the month
name list as parameter. -/
def fmtMonDCY (names : List String) (l : List Char) : Option Int := do
  let (mo, l) ← eatNameIn names 1 l
  let l ← eatWs l
  let (d, l) ← eatNum2 1 31 l
  let l ← eatC (',') l
  let l ← eatWs l
  let (y, l) ← eatYear4 l
  if l = [] then mkStamp y mo d 0 0 0 else none

/-- strptime formats 22 Apr 2023 and 22 April 2023. -/
def fmtDMonY (names : List String) (l : List Char) : Option Int := do
  let (d, l) ← eatNum2 1 31 l
  let l ← eatWs l
  let (mo, l) ← eatNameIn names 1 l
  let l ← eatWs l
  let (y, l) ← eatYear4 l
  if l = [] then mkStamp y mo d 0 0 0 else none

/-- strptime format 2023/04/22. -/
def fmtYmdSlash (l : List Char) : Option Int := do
  let (y, l) ← eatYear4 l
  let l ← eatC ('/') l
  let (mo, l) ← eatNum2 1 12 l
  let l ← eatC ('/') l
  let (d, l) ← eatNum2 1 31 l
  if l = [] then mkStamp y mo d 0 0 0 else none

/-- strptime GitHub API format, weekday month day time UTC year.  The
parsed weekday is not checked for consistency, as in CPython. -/
def fmtUtc (l : List Char) : Option Int := do
  let (_, l) ← eatNameIn weekAbbr 1 l
  let l ← eatWs l
  let (mo, l) ← eatNameIn monthsAbbr 1 l
  let l ← eatWs l
  let (d, l) ← eatNum2 1 31 l
  let l ← eatWs l
  let (hh, l) ← eatNum2 0 23 l
  let l ← eatC (':') l
  let (mi, l) ← eatNum2 0 59 l
  let l ← eatC (':') l
  let (ss, l) ← eatNum2 0 61 l
  let l ← eatWs l
  let l ← eatLit (("utc").data) l
  let l ← eatWs l
  let (y, l) ← eatYear4 l
  if l = [] then mkStamp y mo d hh mi ss else none

/-- The format list of lines 214-224, tried in order, first success
wins (lines 226-230). -/
def tryFormats (l : List Char) : Option Int :=
  (fmtYmdDash l).orElse fun _ =>
  (fmtDmySlash l).orElse fun _ =>
  (fmtMdySlash l).orElse fun _ =>
  (fmtMonDCY monthsAbbr l).orElse fun _ =>
  (fmtMonDCY monthsFull l).orElse fun _ =>
  (fmtDMonY monthsAbbr l).orElse fun _ =>
  (fmtDMonY monthsFull l).orElse fun _ =>
  (fmtYmdSlash l).orElse fun _ =>
  fmtUtc l

/-- parse_date_string (lines 159-232).  The day, week and month
branches fall through when the phrase carries no number, exactly as
the source (their return statements sit under the inner if). -/
def parse_date_string (now : Int) (s : String) : Option Int :=
  let d := pyStripS (pyLower s)
  if d = ("today") ∨ d = ("just now") ∨ d = ("now") ∨ d = ("few minutes ago") ∨
     d = ("recently posted") then some now
  else if pyContains d ("minute") then
    match findFirstNum d.data with
    | some m => some (now - (m : Int) * 60)
    | none => some now
  else if pyContains d ("hour") then
    match findFirstNum d.data with
    | some h => some (now - (h : Int) * 3600)
    | none => some now
  else if d = ("yesterday") ∨ d = ("1 day ago") then some (now - 86400)
  else
    match (if pyContains d ("day") then findFirstNum d.data else none) with
    | some n => some (now - (n : Int) * 86400)
    | none =>
      match (if pyContains d ("week") then findFirstNum d.data else none) with
      | some n => some (now - (n : Int) * 604800)
      | none =>
        if d = ("within last 7 days") ∨ d = ("past week") ∨ d = ("recent") ∨
           d = ("posted recently") then some (now - 259200)
        else
          match (if pyContains d ("month") then findFirstNum d.data else none) with
          | some n => some (now - (n : Int) * 2592000)
          | none => tryFormats d.data

/-! ## Recency filter: filter_recent_jobs (lines 235-306) -/

def recentIndicators : List String :=
  ["today", "just now", "few hours ago", "hour ago", "hours ago",
   "yesterday", "1 day ago", "recent", "moments ago", "just posted",
   "new", "posted today", "within last 7 days", "recently posted",
   "past week", "few days ago", "this week", "active", "latest",
   "fresh", "available", "current", "open", "posted"]

/-- Tail of the hour regex after digits and whitespace: hr or hour. -/
def hourTail (l : List Char) : Bool :=
  ("hr").data.isPrefixOf l || ("hour").data.isPrefixOf l

def minTail (l : List Char) : Bool := ("min").data.isPrefixOf l

def dayTail (l : List Char) : Bool := ("d").data.isPrefixOf l

def weekTail (l : List Char) : Bool := ("week").data.isPrefixOf l

/-- The combined row predicate of filter_recent_jobs: the text mask of
lines 273-282 (computed over the lowercased date) or-ed with the
parse-based mask of lines 285-296.  Both use the extended window
max(days*5, 45) of line 270 from the start. -/
def filterRecentPred (now : Int) (days : Nat) (j : Job) : Bool :=
  let low := pyLower j.date
  let ext := max (days * 5) 45
  recentIndicators.any (fun ind => pyContains low ind)
  || (searchNumThen hourTail low.data).isSome
  || (searchNumThen minTail low.data).isSome
  || (match searchNumThen dayTail low.data with
      | some n => decide (n ≤ ext)
      | none => false)
  || (match searchNumThen weekTail low.data with
      | some n => decide (n ≤ ext / 7)
      | none => false)
  || decide ((pyStripS low).length ≤ 2)
  || (match parse_date_string now j.date with
      | some t => decide (now - (ext : Int) * 86400 ≤ t)
      | none => true)

/-- filter_recent_jobs.  mask.sum() < len * 0.5 is exactly
2 * sum < len; below that the whole set is returned (line 304). -/
def filter_recent_jobs (now : Int) (jobs : List Job) (days : Nat) : List Job :=
  if jobs.length = 0 then jobs
  else if jobs.length < 15 then jobs
  else
    let kept := jobs.filter (filterRecentPred now days)
    if 2 * kept.length < jobs.length then jobs else kept

/-! ## Pipeline Orchestrator: process_jobs (lines 436-496) -/

/-- Conditional keyword stage (lines 474-479): run the filter only for
a non-empty keyword list on at least 20 rows, and adopt its result
only when it keeps at least max(15, len*0.5) rows, rendered exactly as
2 * kept >= max 30 len. -/
def kwStage (keywords : List String) (l : List Job) : List Job :=
  if keywords ≠ [] ∧ 20 ≤ l.length then
    let kf := filter_jobs_by_keywords l keywords
    if max 30 l.length ≤ 2 * kf.length then kf else l
  else l

/-- Conditional location stage (lines 481-486). -/
def locStage (locations : List String) (l : List Job) : List Job :=
  if locations ≠ [] ∧ 20 ≤ l.length then
    let lf := filter_jobs_by_location l locations
    if max 30 l.length ≤ 2 * lf.length then lf else l
  else l

/-- Recency stage (lines 488-490): applied on at least 20 rows. -/
def recStage (now : Int) (recent_days : Nat) (l : List Job) : List Job :=
  if 20 ≤ l.length then filter_recent_jobs now l recent_days else l

/-- Optional ranking stage (lines 492-494). -/
def sortStage (sort_by_date : Bool) (l : List Job) : List Job :=
  if sort_by_date then sort_jobs_by_date l else l

/-- process_jobs (lines 436-496): fillna and title drop
(normalizeRecord), per-row enrichment, deduplication, the conditional
keyword, location and recency stages, then optional ranking.  A None
keyword or location argument behaves as the empty list. -/
def process_jobs (now : Int) (jobs : List RawJob) (keywords locations : List String)
    (recent_days : Nat) (sort_by_date : Bool) : List Job :=
  if jobs.length = 0 then []
  else
    sortStage sort_by_date
      (recStage now recent_days
        (locStage locations
          (kwStage keywords
            (remove_duplicates ((jobs.filterMap normalizeRecord).map enrichJob)))))

/-! ## Heap-instrumented pipeline for the frame property

pandas DataFrames are mutable objects: column assignment mutates the
frame in place, while boolean indexing, copy, drop_duplicates,
sort_values, drop and reset_index build fresh frames.  To state that
process_jobs leaves the frame of the caller untouched, the pipeline is
replayed over an explicit heap of frames: a variable holds an address,
df.copy() and every fresh-frame operation allocate, and every column
assignment writes through the address it was performed on.  Chains of
purely fresh-frame constructions inside one statement are folded into
the single allocation of the statement result. -/

/-- A pandas row for the instrumented pipeline: the six source columns
(the four fillna-covered ones possibly missing) plus the temporary
columns clean_title, clean_company (remove_duplicates) and
recency_score (sort_jobs_by_date). -/
structure PRow where
  title : Option String
  company : Option String
  location : Option String
  date : Option String
  link : String
  source : String
  cleanT : Option String
  cleanC : Option String
  rscore : Option Int
deriving DecidableEq

abbrev Frame : Type := List PRow

abbrev Heap : Type := List Frame

def readH (h : Heap) (a : Nat) : Frame := h.getD a []

def writeH (h : Heap) (a : Nat) (f : Frame) : Heap := h.set a f

def allocH (h : Heap) (f : Frame) : Heap × Nat := (h ++ [f], h.length)

/-- View of a row as a normalized record; on every path where it is
used the optional fields have already been filled, so the defaults are
never read. -/
def rowJob (r : PRow) : Job :=
  ⟨r.title.getD (""), r.company.getD (""), r.location.getD (""), r.date.getD (""),
   r.link, r.source⟩

def rowOfRaw (r : RawJob) : PRow :=
  ⟨r.title, r.company, r.location, r.date, r.link, r.source, none, none, none⟩

def titleOkRow (r : PRow) : Bool :=
  match r.title with
  | none => false
  | some t => decide (t ≠ "")

/-- enrich_job_data over the heap: its four column assignments write
through the argument address, and the function returns its argument
(the source returns jobs_df itself). -/
def enrichH (h : Heap) (a : Nat) : Heap × Nat :=
  if (readH h a).length = 0 then (h, a)
  else
    let h1 := writeH h a ((readH h a).map fun r => { r with link := enrichLink1 r.link })
    let h2 := writeH h1 a ((readH h1 a).map fun r => { r with link := enrichLink2 (rowJob r) })
    let h3 := writeH h2 a
      ((readH h2 a).map fun r => { r with company := some (cleanCompany (r.company.getD (""))) })
    let h4 := writeH h3 a
      ((readH h3 a).map fun r => { r with location := some (cleanLocation (r.location.getD (""))) })
    (h4, a)

def dedupKeyRow (r : PRow) : Option String × Option String := (r.cleanT, r.cleanC)

def dedupGoRow (seen : List (Option String × Option String)) : List PRow → List PRow
  | [] => []
  | x :: xs =>
    if dedupKeyRow x ∈ seen then dedupGoRow seen xs
    else x :: dedupGoRow (dedupKeyRow x :: seen) xs

/-- remove_duplicates over the heap: writes the two clean columns into
its argument frame, then allocates the deduplicated frame and the
frame with the temporary columns dropped, returning the latter. -/
def removeDupH (h : Heap) (a : Nat) : Heap × Nat :=
  if (readH h a).length = 0 then (h, a)
  else
    let h1 := writeH h a
      ((readH h a).map fun r => { r with cleanT := some (cleanStr (r.title.getD (""))) })
    let h2 := writeH h1 a
      ((readH h1 a).map fun r => { r with cleanC := some (cleanStr (r.company.getD (""))) })
    let s3 := allocH h2 (dedupGoRow [] (readH h2 a))
    allocH s3.1 ((readH s3.1 s3.2).map fun r => { r with cleanT := none, cleanC := none })

/-- filter_jobs_by_keywords over the heap: pure reads; the skip paths
return the argument address itself (the source returns jobs_df), the
filtering path allocates the masked frame. -/
def kwFilterH (h : Heap) (a : Nat) (keywords : List String) : Heap × Nat :=
  let f := readH h a
  if f.length = 0 then (h, a)
  else if f.length < 15 then (h, a)
  else
    let strictCnt := (f.filter fun r => kwStrictPred keywords (rowJob r)).length
    let pred : PRow → Bool :=
      if 2 * strictCnt < max 20 f.length then fun r => kwLenientPred (rowJob r)
      else fun r => kwStrictPred keywords (rowJob r)
    if (f.filter pred).length = 0 then (h, a)
    else allocH h (f.filter pred)

def locFilterH (h : Heap) (a : Nat) (locations : List String) : Heap × Nat :=
  let f := readH h a
  if f.length = 0 then (h, a)
  else if f.length < 15 then (h, a)
  else
    let vars := locVariations locations
    let strictCnt := (f.filter fun r => locStrictPred vars (rowJob r)).length
    let pred : PRow → Bool :=
      if 2 * strictCnt < max 20 f.length then fun r => locLenientPred (rowJob r)
      else fun r => locStrictPred vars (rowJob r)
    if (f.filter pred).length < 10 ∧ 15 < f.length then (h, a)
    else allocH h (f.filter pred)

def recFilterH (h : Heap) (a : Nat) (now : Int) (days : Nat) : Heap × Nat :=
  let f := readH h a
  if f.length = 0 then (h, a)
  else if f.length < 15 then (h, a)
  else
    let kept := f.filter fun r => filterRecentPred now days (rowJob r)
    if 2 * kept.length < f.length then (h, a)
    else allocH h kept

/-- sort_jobs_by_date over the heap: writes the recency_score column
through its argument address, then allocates the sorted frame with the
column dropped again. -/
def sortH (h : Heap) (a : Nat) : Heap × Nat :=
  if (readH h a).length = 0 then (h, a)
  else
    let h1 := writeH h a
      ((readH h a).map fun r => { r with rscore := some (recency_score (r.date.getD (""))) })
    let rows := readH h1 a
    allocH h1 (((stableAscBy (fun r => r.rscore.getD 0) rows).reverse).map
      fun r => { r with rscore := none })

/-- Conditional keyword stage over the heap (lines 474-479): the
pre-filter length is read from the current frame, and the filtered
frame is adopted only past the adoption threshold. -/
def kwStageH (keywords : List String) (s : Heap × Nat) : Heap × Nat :=
  if keywords ≠ [] ∧ 20 ≤ (readH s.1 s.2).length then
    let sk := kwFilterH s.1 s.2 keywords
    if max 30 (readH sk.1 s.2).length ≤ 2 * (readH sk.1 sk.2).length then sk
    else (sk.1, s.2)
  else s

/-- Conditional location stage over the heap (lines 481-486). -/
def locStageH (locations : List String) (s : Heap × Nat) : Heap × Nat :=
  if locations ≠ [] ∧ 20 ≤ (readH s.1 s.2).length then
    let sl := locFilterH s.1 s.2 locations
    if max 30 (readH sl.1 s.2).length ≤ 2 * (readH sl.1 sl.2).length then sl
    else (sl.1, s.2)
  else s

/-- Recency stage over the heap (lines 488-490). -/
def recStageH (now : Int) (recent_days : Nat) (s : Heap × Nat) : Heap × Nat :=
  if 20 ≤ (readH s.1 s.2).length then recFilterH s.1 s.2 now recent_days else s

/-- Optional ranking stage over the heap (lines 492-494). -/
def sortStageH (sort_by_date : Bool) (s : Heap × Nat) : Heap × Nat :=
  if sort_by_date then sortH s.1 s.2 else s

/-- The copy of process_jobs line 455, the three fillna column writes
of lines 458-460 (writing through the copy address), and the title
drop of line 463 (boolean indexing, a fresh frame). -/
def copyFillH (h : Heap) (a : Nat) : Heap × Nat :=
  let s1 := allocH h (readH h a)
  let c := s1.2
  let h2 := writeH s1.1 c ((readH s1.1 c).map fun r =>
    { r with location := some (r.location.getD ("Bangalore")) })
  let h3 := writeH h2 c ((readH h2 c).map fun r =>
    { r with date := some (r.date.getD ("Recent")) })
  let h4 := writeH h3 c ((readH h3 c).map fun r =>
    { r with company := some (r.company.getD ("Unknown")) })
  allocH h4 ((readH h4 c).filter titleOkRow)

def enrichS (s : Heap × Nat) : Heap × Nat := enrichH s.1 s.2

def removeDupS (s : Heap × Nat) : Heap × Nat := removeDupH s.1 s.2

/-- process_jobs over the heap (lines 436-496): the empty guard
returns the own frame of the caller; otherwise the input frame is only ever
read by copy, and all writes go through the copy or frames derived
from it. -/
def processJobsH (h : Heap) (a : Nat) (keywords locations : List String)
    (recent_days : Nat) (sort_by_date : Bool) (now : Int) : Heap × Nat :=
  if (readH h a).length = 0 then (h, a)
  else
    sortStageH sort_by_date
      (recStageH now recent_days
        (locStageH locations
          (kwStageH keywords
            (removeDupS (enrichS (copyFillH h a))))))

/-- The frame invariant of one pipeline step: the caller-visible cell a
is untouched, the heap only grows, and the produced address is not a. -/
def FrameInv (h0 : Heap) (a : Nat) (s : Heap × Nat) : Prop :=
  s.1[a]? = h0[a]? ∧ h0.length ≤ s.1.length ∧ s.2 ≠ a

/-! ## Specification-side definitions and concrete fixtures

strictWithinSpec renders the strict recency predicate of the specification
(section 4.2 classification against the plain lookback window): the
date parses to a time within days of now, with an unparseable date
counted as recent.  It exists to compare the specified behavior with
the implemented filter. -/

def strictWithinSpec (now : Int) (days : Nat) (j : Job) : Bool :=
  match parse_date_string now j.date with
  | some t => decide (now - (days : Int) * 86400 ≤ t)
  | none => true

def mkC1Job (t : String) (d : String) : Job :=
  ⟨t, "C", "L", d, "https://example.com/x", "X"⟩

/-- Fifteen records: fourteen well within a 7-day window, one dated
three weeks ago. -/
def c1jobs : List Job :=
  [mkC1Job ("t01") ("2 days ago"), mkC1Job ("t02") ("2 days ago"),
   mkC1Job ("t03") ("2 days ago"), mkC1Job ("t04") ("2 days ago"),
   mkC1Job ("t05") ("2 days ago"), mkC1Job ("t06") ("2 days ago"),
   mkC1Job ("t07") ("2 days ago"), mkC1Job ("t08") ("2 days ago"),
   mkC1Job ("t09") ("2 days ago"), mkC1Job ("t10") ("2 days ago"),
   mkC1Job ("t11") ("2 days ago"), mkC1Job ("t12") ("2 days ago"),
   mkC1Job ("t13") ("2 days ago"), mkC1Job ("t14") ("2 days ago"),
   mkC1Job ("t15") ("3 weeks ago")]

def c2raw : RawJob := ⟨some ("Engineer"), some ("(Acme)"), some (""), some (""), "", ""⟩

def c2rawDefaults : RawJob := ⟨some ("Dev"), none, none, none, "", "Indeed"⟩

def c2out : Job :=
  ⟨"Engineer", "", "", "", "https://www.google.com/search?q=Engineer+(Acme)+jobs+in+", ""⟩

def c3job : Job := ⟨"T", "C", "Bangalore,India", "today", "https://example.com", "X"⟩

def c3plain : Job := ⟨"T", "C", "Bangalore", "today", "https://example.com", "X"⟩

/-- Fifteen records whose location matches no variation of a Delhi
query and no lenient India term. -/
def c4jobs : List Job :=
  List.replicate 15 ⟨"Analyst", "Acme", "Mumbai", "today", "https://example.com/a", "X"⟩

def c5a : Job := ⟨"A", "C", "L", "today", "https://example.com/1", "S"⟩

def c5b : Job := ⟨"B", "C", "L", "today", "https://example.com/2", "S"⟩

def c8jobs : List Job :=
  [⟨"A!", "B", "L1", "d1", "l1", "s1"⟩, ⟨"a", "b", "L2", "d2", "l2", "s2"⟩,
   ⟨"c", "b", "L3", "d3", "l3", "s3"⟩]

def c10job : Job := ⟨"J", "C", "L", " z", "https://example.com/z", "X"⟩

def c10jobs : List Job :=
  c10job :: List.replicate 14 ⟨"K", "C", "L", "today", "https://example.com/k", "X"⟩

def c2outDefaults : Job :=
  ⟨"Dev", "Unknown", "Bangalore", "Recent",
   "https://in.indeed.com/jobs?q=Dev+Unknown&l=Bangalore", "Indeed"⟩

/-- No close parenthesis occurs before the first newline: exactly the
situation in which the non-greedy parenthesis pattern cannot match
starting at a preceding open parenthesis. -/
def noCloseEarly (l : List Char) : Prop :=
  ∀ b c, l = b ++ (')') :: c → ('\n') ∈ b

/-- The parenthesis pattern has no match anywhere in the string: every
open parenthesis with a later close parenthesis has a newline strictly
between them. -/
def noPair (l : List Char) : Prop :=
  ∀ a b c, l = a ++ ('(') :: b ++ (')') :: c → ('\n') ∈ b

/-! ## Helper lemmas: characters and substrings -/

theorem isSpaceC_lowerC (c : Char) : isSpaceC (lowerC c) = isSpaceC c := by
  unfold lowerC
  cases hf : upperLower.find? fun p => p.fst = c with
  | none => rfl
  | some p =>
    have hp : p ∈ upperLower := List.mem_of_find?_eq_some hf
    have hc : p.fst = c := by have := List.find?_some hf; simpa using this
    subst hc
    fin_cases hp <;> decide

theorem lowerC_of_digit {c : Char} (h : isDigitC c = true) : lowerC c = c := by
  unfold lowerC
  cases hf : upperLower.find? fun p => p.fst = c with
  | none => rfl
  | some p =>
    have hp : p ∈ upperLower := List.mem_of_find?_eq_some hf
    have hc : p.fst = c := by have := List.find?_some hf; simpa using this
    subst hc
    fin_cases hp <;> exact absurd h (by decide)

theorem map_lowerC_digits {ds : List Char} (h : ∀ c ∈ ds, isDigitC c = true) :
    ds.map lowerC = ds := by
  induction ds with
  | nil => rfl
  | cons c cs ih =>
    simp only [List.map_cons, lowerC_of_digit (h c (by simp)),
      ih (fun x hx => h x (by simp [hx])), List.cons.injEq, and_self]

theorem isInfixB_iff (n h : List Char) : isInfixB n h = true ↔ n <:+: h := by
  induction h with
  | nil =>
    simp only [isInfixB, List.isEmpty_iff, List.infix_nil]
  | cons c cs ih =>
    simp only [isInfixB, Bool.or_eq_true, List.isPrefixOf_iff_prefix, ih,
      List.infix_cons_iff]

theorem pyContains_eq_false {hay needle : String} {c : Char}
    (hc : c ∈ needle.data) (hm : c ∉ hay.data) : pyContains hay needle = false := by
  rw [← Bool.not_eq_true, pyContains, isInfixB_iff]
  intro hinf
  exact hm (hinf.subset hc)

theorem pyContains_of_parts {hay needle : String} {a b : List Char}
    (h : hay.data = a ++ needle.data ++ b) : pyContains hay needle = true := by
  rw [pyContains, isInfixB_iff]
  exact ⟨a, b, h.symm⟩

theorem takeWhile_append_all {p : Char → Bool} {a b : List Char}
    (h1 : ∀ c ∈ a, p c = true) (h2 : b.takeWhile p = []) :
    (a ++ b).takeWhile p = a := by
  induction a with
  | nil => simpa using h2
  | cons c cs ih =>
    simp only [List.cons_append, List.takeWhile_cons, h1 c (by simp), if_true,
      List.cons.injEq, true_and]
    exact ih fun x hx => h1 x (by simp [hx])

theorem findFirstNum_append {ds b : List Char} (hne : ds ≠ [])
    (hdig : ∀ c ∈ ds, isDigitC c = true) (hb : b.takeWhile isDigitC = []) :
    findFirstNum (ds ++ b) = some (valDigits ds) := by
  cases ds with
  | nil => exact absurd rfl hne
  | cons c cs =>
    have hc := hdig c (by simp)
    have hcs : (cs ++ b).takeWhile isDigitC = cs :=
      takeWhile_append_all (fun x hx => hdig x (by simp [hx])) hb
    simp only [List.cons_append, findFirstNum, hc, if_true, List.append_eq, hcs]

/-! ## Claim C6: recency scoring tiers -/

theorem pyLower_mk_digits (tail : List Char) {ds : List Char}
    (hdig : ∀ c ∈ ds, isDigitC c = true) (htail : tail.map lowerC = tail) :
    pyLower ⟨ds ++ tail⟩ = (⟨ds ++ tail⟩ : String) := by
  show String.mk ((ds ++ tail).map lowerC) = _
  rw [List.map_append, map_lowerC_digits hdig, htail]

theorem not_mem_append_digits {ds tail : List Char} {c : Char}
    (hdig : ∀ x ∈ ds, isDigitC x = true) (hcd : isDigitC c = false)
    (htail : c ∉ tail) : c ∉ ds ++ tail := by
  intro hm
  rcases List.mem_append.mp hm with h | h
  · rw [hdig c h] at hcd; exact Bool.true_eq_false.mp hcd
  · exact htail h

/-- Occurrence of the phrase for one day inside a digit run followed by
the days-ago tail: it happens exactly when the run ends in the digit
one (so eleven days ago, twenty-one days ago and so on hit the
yesterday tier). -/
theorem oneday_within {ds : List Char} (hdig : ∀ c ∈ ds, isDigitC c = true) :
    (("1 day").data <:+: ds ++ (" days ago").data) ↔ ds.getLast? = some ('1') := by
  induction ds with
  | nil =>
    simp only [List.nil_append, List.getLast?_nil]
    constructor
    · intro h
      have hb : isInfixB (("1 day").data) ((" days ago").data) = true := (isInfixB_iff _ _).mpr h
      exact absurd hb (by decide)
    · intro h; exact absurd h (by simp)
  | cons c cs ih =>
    have ihh := ih fun x hx => hdig x (by simp [hx])
    constructor
    · intro h
      rcases List.infix_cons_iff.mp h with hp | hi
      · have h1d : ("1 day").data = ('1') :: (" day").data := by decide
        rw [h1d, List.cons_prefix_cons] at hp
        obtain ⟨hc, hp'⟩ := hp
        cases cs with
        | nil => simp [← hc]
        | cons c' cs' =>
          have hsp : (' ') = c' := by
            have hd : (" day").data = (' ') :: ("day").data := by decide
            rw [hd] at hp'
            exact (List.cons_prefix_cons.mp hp').1
          have hdc := hdig c' (by simp)
          rw [← hsp] at hdc
          exact absurd hdc (by decide)
      · have hlast := ihh.mp hi
        cases cs with
        | nil => rw [List.getLast?_nil] at hlast; exact absurd hlast (by simp)
        | cons c' cs' => rw [List.getLast?_cons_cons]; exact hlast
    · intro h
      obtain ⟨ys, hys⟩ := List.getLast?_eq_some_iff.mp h
      rw [hys]
      refine ⟨ys, ("s ago").data, ?_⟩
      have hsplit : (" days ago").data = (" day").data ++ ("s ago").data := by decide
      have h1d : ("1 day").data = ('1') :: (" day").data := by decide
      rw [hsplit, h1d]
      simp [List.append_assoc]

theorem score_hours {ds : List Char} (hne : ds ≠ [])
    (hdig : ∀ c ∈ ds, isDigitC c = true) :
    recency_score ⟨ds ++ (" hours ago").data⟩ = 900 - (valDigits ds : Int) := by
  have hlow := pyLower_mk_digits ((" hours ago").data) hdig (by decide)
  have hj : pyContains ⟨ds ++ (" hours ago").data⟩ ("just now") = false :=
    pyContains_eq_false (c := ('j')) (by decide)
      (not_mem_append_digits hdig (by decide) (by decide))
  have hf : pyContains ⟨ds ++ (" hours ago").data⟩ ("few minutes") = false :=
    pyContains_eq_false (c := ('f')) (by decide)
      (not_mem_append_digits hdig (by decide) (by decide))
  have hm : pyContains ⟨ds ++ (" hours ago").data⟩ ("moments ago") = false :=
    pyContains_eq_false (c := ('m')) (by decide)
      (not_mem_append_digits hdig (by decide) (by decide))
  have hh : pyContains ⟨ds ++ (" hours ago").data⟩ ("hour") = true := by
    refine pyContains_of_parts (a := ds ++ [(' ')]) (b := ("s ago").data) ?_
    have : (" hours ago").data = [(' ')] ++ ("hour").data ++ ("s ago").data := by decide
    show ds ++ (" hours ago").data = _
    rw [this]; simp [List.append_assoc]
  have hnum : findFirstNum (String.mk (ds ++ (" hours ago").data)).data
      = some (valDigits ds) := findFirstNum_append hne hdig (by decide)
  simp only [recency_score, hlow, hj, hf, hm, hh, hnum, Bool.or_self, Bool.or_false,
    Bool.false_or, Bool.false_eq_true, if_false, if_true]

theorem score_days_plain {ds : List Char} (hne : ds ≠ [])
    (hdig : ∀ c ∈ ds, isDigitC c = true) (hlast : ds.getLast? ≠ some ('1')) :
    recency_score ⟨ds ++ (" days ago").data⟩ = 500 - (valDigits ds : Int) := by
  have hlow := pyLower_mk_digits ((" days ago").data) hdig (by decide)
  have hj : pyContains ⟨ds ++ (" days ago").data⟩ ("just now") = false :=
    pyContains_eq_false (c := ('j')) (by decide)
      (not_mem_append_digits hdig (by decide) (by decide))
  have hf : pyContains ⟨ds ++ (" days ago").data⟩ ("few minutes") = false :=
    pyContains_eq_false (c := ('f')) (by decide)
      (not_mem_append_digits hdig (by decide) (by decide))
  have hm : pyContains ⟨ds ++ (" days ago").data⟩ ("moments ago") = false :=
    pyContains_eq_false (c := ('m')) (by decide)
      (not_mem_append_digits hdig (by decide) (by decide))
  have hh : pyContains ⟨ds ++ (" days ago").data⟩ ("hour") = false :=
    pyContains_eq_false (c := ('h')) (by decide)
      (not_mem_append_digits hdig (by decide) (by decide))
  have ht : pyContains ⟨ds ++ (" days ago").data⟩ ("today") = false :=
    pyContains_eq_false (c := ('t')) (by decide)
      (not_mem_append_digits hdig (by decide) (by decide))
  have hy : pyContains ⟨ds ++ (" days ago").data⟩ ("yesterday") = false :=
    pyContains_eq_false (c := ('e')) (by decide)
      (not_mem_append_digits hdig (by decide) (by decide))
  have h1 : pyContains ⟨ds ++ (" days ago").data⟩ ("1 day") = false := by
    rw [pyContains]
    rw [Bool.eq_false_iff]
    intro hb
    exact hlast ((oneday_within hdig).mp ((isInfixB_iff _ _).mp hb))
  have hd : pyContains ⟨ds ++ (" days ago").data⟩ ("day") = true := by
    refine pyContains_of_parts (a := ds ++ [(' ')]) (b := ("s ago").data) ?_
    have : (" days ago").data = [(' ')] ++ ("day").data ++ ("s ago").data := by decide
    show ds ++ (" days ago").data = _
    rw [this]; simp [List.append_assoc]
  have hnum : findFirstNum (String.mk (ds ++ (" days ago").data)).data
      = some (valDigits ds) := findFirstNum_append hne hdig (by decide)
  simp only [recency_score, hlow, hj, hf, hm, hh, ht, hy, h1, hd, hnum, Bool.or_self,
    Bool.or_false, Bool.false_or, Bool.false_eq_true, if_false, if_true]

theorem score_days_one {ds : List Char} (hdig : ∀ c ∈ ds, isDigitC c = true)
    (hlast : ds.getLast? = some ('1')) :
    recency_score ⟨ds ++ (" days ago").data⟩ = 600 := by
  have hlow := pyLower_mk_digits ((" days ago").data) hdig (by decide)
  have hj : pyContains ⟨ds ++ (" days ago").data⟩ ("just now") = false :=
    pyContains_eq_false (c := ('j')) (by decide)
      (not_mem_append_digits hdig (by decide) (by decide))
  have hf : pyContains ⟨ds ++ (" days ago").data⟩ ("few minutes") = false :=
    pyContains_eq_false (c := ('f')) (by decide)
      (not_mem_append_digits hdig (by decide) (by decide))
  have hm : pyContains ⟨ds ++ (" days ago").data⟩ ("moments ago") = false :=
    pyContains_eq_false (c := ('m')) (by decide)
      (not_mem_append_digits hdig (by decide) (by decide))
  have hh : pyContains ⟨ds ++ (" days ago").data⟩ ("hour") = false :=
    pyContains_eq_false (c := ('h')) (by decide)
      (not_mem_append_digits hdig (by decide) (by decide))
  have ht : pyContains ⟨ds ++ (" days ago").data⟩ ("today") = false :=
    pyContains_eq_false (c := ('t')) (by decide)
      (not_mem_append_digits hdig (by decide) (by decide))
  have h1 : pyContains ⟨ds ++ (" days ago").data⟩ ("1 day") = true := by
    rw [pyContains]
    exact (isInfixB_iff _ _).mpr ((oneday_within hdig).mpr hlast)
  simp only [recency_score, hlow, hj, hf, hm, hh, ht, h1, Bool.or_self, Bool.or_false,
    Bool.false_or, Bool.or_true, Bool.false_eq_true, if_false, if_true]

/-- C6 counterexample: the claim assigns minutes-ago phrasing a high
fixed score and eleven-days-ago the value 500 minus 11, but the code
scores a plain numeric minutes phrase 0 (only the fixed phrases just
now, few minutes and moments ago hit the 1000 tier) and sends eleven
days ago to the yesterday tier 600 through the one-day substring. -/
theorem claim6_cx :
    recency_score ("5 minutes ago") = 0 ∧ recency_score ("11 days ago") = 600 := by
  constructor <;> decide

/-- C6 amended: the 1000 tier is reached exactly through the fixed
phrases (plain numeric minutes phrasing is unrecognized and scores 0);
N hours ago scores 900 - N; N days ago scores 500 - N unless the digit
run ends in 1 (then the one-day substring puts it at 600, the tier of
yesterday and 1 day ago); today scores 700, week phrasing 300, and
unrecognized strings 0. -/
theorem claim6_thm :
    (∀ ds : List Char, ds ≠ [] → (∀ c ∈ ds, isDigitC c = true) →
      recency_score ⟨ds ++ (" hours ago").data⟩ = 900 - (valDigits ds : Int)) ∧
    (∀ ds : List Char, ds ≠ [] → (∀ c ∈ ds, isDigitC c = true) →
      ds.getLast? ≠ some ('1') →
      recency_score ⟨ds ++ (" days ago").data⟩ = 500 - (valDigits ds : Int)) ∧
    (∀ ds : List Char, (∀ c ∈ ds, isDigitC c = true) → ds.getLast? = some ('1') →
      recency_score ⟨ds ++ (" days ago").data⟩ = 600) ∧
    recency_score ("just now") = 1000 ∧ recency_score ("few minutes ago") = 1000 ∧
    recency_score ("moments ago") = 1000 ∧ recency_score ("5 minutes ago") = 0 ∧
    recency_score ("today") = 700 ∧ recency_score ("yesterday") = 600 ∧
    recency_score ("1 day ago") = 600 ∧ recency_score ("2 weeks ago") = 300 ∧
    recency_score ("2024-01-15") = 0 :=
  ⟨fun _ h1 h2 => score_hours h1 h2, fun _ h1 h2 h3 => score_days_plain h1 h2 h3,
   fun _ h1 h2 => score_days_one h1 h2, by decide, by decide, by decide, by decide,
   by decide, by decide, by decide, by decide, by decide⟩

/-- C6 witness: the general tiers evaluated at the digit run 42 (and
41 for the one-ending case). -/
theorem claim6_wit :
    recency_score ("42 hours ago") = 858 ∧ recency_score ("42 days ago") = 458 ∧
    recency_score ("41 days ago") = 600 := by
  refine ⟨?_, ?_, ?_⟩
  · have h := claim6_thm.1 ([('4'), ('2')]) (by decide) (by decide)
    have hs : (("42 hours ago") : String) = ⟨[('4'), ('2')] ++ (" hours ago").data⟩ := by decide
    rw [hs, h]; decide
  · have h := claim6_thm.2.1 ([('4'), ('2')]) (by decide) (by decide) (by decide)
    have hs : (("42 days ago") : String) = ⟨[('4'), ('2')] ++ (" days ago").data⟩ := by decide
    rw [hs, h]; decide
  · have h := claim6_thm.2.2.1 ([('4'), ('1')]) (by decide) (by decide)
    have hs : (("41 days ago") : String) = ⟨[('4'), ('1')] ++ (" days ago").data⟩ := by decide
    rw [hs, h]

/-! ## Claim C10: placeholder dates always pass the recency filter -/

theorem pyStripL_map_lowerC (l : List Char) :
    pyStripL (l.map lowerC) = (pyStripL l).map lowerC := by
  have hc : (isSpaceC ∘ lowerC) = isSpaceC := funext isSpaceC_lowerC
  unfold pyStripL
  rw [List.dropWhile_map, hc, ← List.map_reverse, List.dropWhile_map, hc,
     ← List.map_reverse]

theorem pyStrip_lower_length (s : String) :
    (pyStripS (pyLower s)).length = (pyStripS s).length := by
  show (pyStripL (s.data.map lowerC)).length = (pyStripL s.data).length
  rw [pyStripL_map_lowerC, List.length_map]

/-- C10: any record whose date trims to at most two characters is
retained by the recency filter on working sets of at least 15, for
every lookback window (the short-date disjunct of the text mask, and
the full-set fallback otherwise). -/
theorem claim10_thm (now : Int) (jobs : List Job) (days : Nat) (j : Job)
    (hlen : 15 ≤ jobs.length) (hj : j ∈ jobs)
    (hd : (pyStripS j.date).length ≤ 2) :
    j ∈ filter_recent_jobs now jobs days := by
  have h2 : (pyStripS (pyLower j.date)).length ≤ 2 := by
    rw [pyStrip_lower_length]; exact hd
  have hpred : filterRecentPred now days j = true := by
    simp only [filterRecentPred, Bool.or_eq_true, decide_eq_true_eq]
    tauto
  simp only [filter_recent_jobs]
  split_ifs
  · exact hj
  · exact hj
  · exact hj
  · exact List.mem_filter.mpr ⟨hj, hpred⟩

/-- C10 witness: a record dated with a single letter surrounded by
whitespace, in a fifteen-record set with a seven-day window. -/
theorem claim10_wit : c10job ∈ filter_recent_jobs 0 c10jobs 7 :=
  claim10_thm 0 c10jobs 7 c10job (by decide) (by decide) (by decide)

/-! ## Claim C7: monotone non-expansion -/

theorem dedupGo_length_le (l : List Job) : ∀ seen, (dedupGo seen l).length ≤ l.length := by
  induction l with
  | nil => intro seen; simp [dedupGo]
  | cons x xs ih =>
    intro seen
    simp only [dedupGo]
    split
    · exact le_trans (ih _) (by simp)
    · simpa using ih _

theorem remove_duplicates_length_le (jobs : List Job) :
    (remove_duplicates jobs).length ≤ jobs.length := by
  unfold remove_duplicates
  split
  · exact le_refl _
  · exact dedupGo_length_le _ _

theorem filter_keywords_length_le (jobs : List Job) (kw : List String) :
    (filter_jobs_by_keywords jobs kw).length ≤ jobs.length := by
  simp only [filter_jobs_by_keywords]
  split_ifs <;> first | exact le_refl _ | exact List.length_filter_le _ _

theorem filter_location_length_le (jobs : List Job) (lo : List String) :
    (filter_jobs_by_location jobs lo).length ≤ jobs.length := by
  simp only [filter_jobs_by_location]
  split_ifs <;> first | exact le_refl _ | exact List.length_filter_le _ _

theorem filter_recent_length_le (now : Int) (jobs : List Job) (d : Nat) :
    (filter_recent_jobs now jobs d).length ≤ jobs.length := by
  simp only [filter_recent_jobs]
  split_ifs <;> first | exact le_refl _ | exact List.length_filter_le _ _

theorem insertAscBy_length {α : Type} (key : α → Int) (x : α) (l : List α) :
    (insertAscBy key x l).length = l.length + 1 := by
  induction l with
  | nil => rfl
  | cons y ys ih =>
    simp only [insertAscBy]
    split
    · simp [ih]
    · simp

theorem stableAscBy_length {α : Type} (key : α → Int) (l : List α) :
    (stableAscBy key l).length = l.length := by
  suffices h : ∀ acc : List α, (List.foldl (fun acc x => insertAscBy key x acc) acc l).length
      = acc.length + l.length by
    simpa using h []
  induction l with
  | nil => intro acc; simp
  | cons x xs ih =>
    intro acc
    simp only [List.foldl_cons, ih, insertAscBy_length, List.length_cons]
    omega

theorem sort_length (jobs : List Job) : (sort_jobs_by_date jobs).length = jobs.length := by
  unfold sort_jobs_by_date
  split
  · rfl
  · rw [List.length_reverse, stableAscBy_length]

theorem kwStage_length_le (kw : List String) (l : List Job) :
    (kwStage kw l).length ≤ l.length := by
  simp only [kwStage]
  split_ifs <;> first | exact le_refl _ | exact filter_keywords_length_le _ _

theorem locStage_length_le (lo : List String) (l : List Job) :
    (locStage lo l).length ≤ l.length := by
  simp only [locStage]
  split_ifs <;> first | exact le_refl _ | exact filter_location_length_le _ _

theorem recStage_length_le (now : Int) (rd : Nat) (l : List Job) :
    (recStage now rd l).length ≤ l.length := by
  simp only [recStage]
  split_ifs <;> first | exact le_refl _ | exact filter_recent_length_le _ _ _

theorem sortStage_length (flag : Bool) (l : List Job) :
    (sortStage flag l).length = l.length := by
  simp only [sortStage]
  split_ifs <;> first | rfl | exact sort_length _

/-- C7: the pipeline never grows the working set, and each stage of it
(title drop with defaulting, deduplication, each of the three filters)
is individually non-increasing in size. -/
theorem claim7_thm :
    (∀ (now : Int) (jobs : List RawJob) (kw lo : List String) (rd : Nat) (flag : Bool),
       (process_jobs now jobs kw lo rd flag).length ≤ jobs.length) ∧
    (∀ jobs : List RawJob, (jobs.filterMap normalizeRecord).length ≤ jobs.length) ∧
    (∀ (jobs : List Job) (kw : List String),
       (filter_jobs_by_keywords jobs kw).length ≤ jobs.length) ∧
    (∀ (jobs : List Job) (lo : List String),
       (filter_jobs_by_location jobs lo).length ≤ jobs.length) ∧
    (∀ (now : Int) (jobs : List Job) (d : Nat),
       (filter_recent_jobs now jobs d).length ≤ jobs.length) ∧
    (∀ jobs : List Job, (remove_duplicates jobs).length ≤ jobs.length) := by
  refine ⟨?_, fun jobs => List.length_filterMap_le _ _, filter_keywords_length_le,
    filter_location_length_le, filter_recent_length_le, remove_duplicates_length_le⟩
  intro now jobs kw lo rd flag
  unfold process_jobs
  split
  · simp
  · calc (sortStage flag (recStage now rd (locStage lo (kwStage kw
          (remove_duplicates ((jobs.filterMap normalizeRecord).map enrichJob)))))).length
        = (recStage now rd (locStage lo (kwStage kw
          (remove_duplicates ((jobs.filterMap normalizeRecord).map enrichJob))))).length :=
          sortStage_length _ _
      _ ≤ (locStage lo (kwStage kw
          (remove_duplicates ((jobs.filterMap normalizeRecord).map enrichJob)))).length :=
          recStage_length_le _ _ _
      _ ≤ (kwStage kw
          (remove_duplicates ((jobs.filterMap normalizeRecord).map enrichJob))).length :=
          locStage_length_le _ _
      _ ≤ (remove_duplicates ((jobs.filterMap normalizeRecord).map enrichJob)).length :=
          kwStage_length_le _ _
      _ ≤ ((jobs.filterMap normalizeRecord).map enrichJob).length :=
          remove_duplicates_length_le _
      _ = (jobs.filterMap normalizeRecord).length := List.length_map _ _
      _ ≤ jobs.length := List.length_filterMap_le _ _

/-! ## Claim C8: deduplication invariants -/

theorem dedupGo_not_mem_seen (l : List Job) :
    ∀ seen z, z ∈ dedupGo seen l → dedupKey z ∉ seen := by
  induction l with
  | nil => intro seen z hz; simp [dedupGo] at hz
  | cons x xs ih =>
    intro seen z hz
    simp only [dedupGo] at hz
    split at hz
    · exact ih _ _ hz
    · rcases List.mem_cons.mp hz with h | h
      · subst h; assumption
      · have := ih _ _ h
        intro hmem
        exact this (List.mem_cons_of_mem _ hmem)

theorem dedupGo_pairwise (l : List Job) :
    ∀ seen, (dedupGo seen l).Pairwise fun a b => dedupKey a ≠ dedupKey b := by
  induction l with
  | nil => intro seen; simp [dedupGo]
  | cons x xs ih =>
    intro seen
    simp only [dedupGo]
    split
    · exact ih _
    · refine List.Pairwise.cons ?_ (ih _)
      intro z hz heq
      exact dedupGo_not_mem_seen xs _ z hz (heq ▸ List.mem_cons_self _ _)

theorem dedupGo_sublist (l : List Job) : ∀ seen, List.Sublist (dedupGo seen l) l := by
  induction l with
  | nil => intro seen; simp [dedupGo]
  | cons x xs ih =>
    intro seen
    simp only [dedupGo]
    split
    · exact (ih _).cons _
    · exact (ih _).cons₂ _

theorem dedupGo_first_seen (l : List Job) :
    ∀ seen z, z ∈ dedupGo seen l →
      ∃ l1 l2, l = l1 ++ z :: l2 ∧ ∀ y ∈ l1, dedupKey y ≠ dedupKey z := by
  induction l with
  | nil => intro seen z hz; simp [dedupGo] at hz
  | cons x xs ih =>
    intro seen z hz
    simp only [dedupGo] at hz
    split at hz
    · obtain ⟨l1, l2, heq, hsafe⟩ := ih _ _ hz
      refine ⟨x :: l1, l2, by simp [heq], ?_⟩
      intro y hy
      rcases List.mem_cons.mp hy with h | h
      · subst h
        have hzk := dedupGo_not_mem_seen xs _ z hz
        intro hk
        exact hzk (hk ▸ (by assumption))
      · exact hsafe y h
    · rcases List.mem_cons.mp hz with h | h
      · subst h; exact ⟨[], xs, rfl, by simp⟩
      · obtain ⟨l1, l2, heq, hsafe⟩ := ih _ _ h
        refine ⟨x :: l1, l2, by simp [heq], ?_⟩
        intro y hy
        rcases List.mem_cons.mp hy with hyx | hyl
        · subst hyx
          have hzk := dedupGo_not_mem_seen xs _ z h
          intro hk
          exact hzk (by rw [← hk]; exact List.mem_cons_self _ _)
        · exact hsafe y hyl

/-- C8: after deduplication the cleaned title-company keys are pairwise
distinct, the output is a subsequence of the input, and each kept
record is the first input record carrying its key. -/
theorem claim8_thm (jobs : List Job) :
    (remove_duplicates jobs).Pairwise (fun a b => dedupKey a ≠ dedupKey b) ∧
    List.Sublist (remove_duplicates jobs) jobs ∧
    (∀ z ∈ remove_duplicates jobs,
      ∃ l1 l2, jobs = l1 ++ z :: l2 ∧ ∀ y ∈ l1, dedupKey y ≠ dedupKey z) := by
  unfold remove_duplicates
  split
  · refine ⟨?_, List.Sublist.refl _, ?_⟩
    · have : jobs = [] := List.length_eq_zero.mp (by assumption)
      simp [this]
    · intro z hz
      have : jobs = [] := List.length_eq_zero.mp (by assumption)
      rw [this] at hz
      simp at hz
  · exact ⟨dedupGo_pairwise jobs [], dedupGo_sublist jobs [],
      fun z hz => dedupGo_first_seen jobs [] z hz⟩

/-- C8 witness: in a three-record set whose first two records share a
cleaned key, the kept third record is located at its first-seen
position with no earlier record of the same key. -/
theorem claim8_wit :
    ∃ l1 l2, c8jobs = l1 ++ (⟨"c", "b", "L3", "d3", "l3", "s3"⟩ : Job) :: l2 ∧
      ∀ y ∈ l1, dedupKey y ≠ dedupKey (⟨"c", "b", "L3", "d3", "l3", "s3"⟩ : Job) :=
  (claim8_thm c8jobs).2.2 _ (by decide)

/-! ## Claim C4: the never-empty guarantee and the size-15 gap -/

/-- C4: at working-set size exactly 15 the location filter runs (the
skip guard only fires below 15) but its final return-all guard demands
strictly more than 15 rows, so a set of 15 records matching neither
the strict nor the lenient predicate filters down to the empty set,
against the never-empty guarantee. -/
theorem claim4_thm :
    filter_jobs_by_location c4jobs (["delhi"]) = ([] : List Job) ∧
    c4jobs.length = 15 := by
  constructor <;> decide

/-! ## Claim C1: the recency filter has no strict-window phase -/

/-- C1 counterexample: fifteen records, fourteen inside the seven-day
window and one dated three weeks ago.  The strict predicate of the
claim retains 14 records, far above the relaxation floor, so the claim
predicts the stale record is dropped; the filter returns all fifteen
records because its only predicate already uses the extended window. -/
theorem claim1_cx :
    filter_recent_jobs 0 c1jobs 7 = c1jobs ∧
    (c1jobs.filter (strictWithinSpec 0 7)).length = 14 ∧
    c1jobs.length = 15 ∧
    c1jobs.length ≤ 2 * (c1jobs.filter (strictWithinSpec 0 7)).length ∧
    filter_recent_jobs 0 c1jobs 7 ≠ c1jobs.filter (strictWithinSpec 0 7) := by
  refine ⟨by decide, by decide, by decide, by decide, by decide⟩

/-- C1 amended: the filter applies one combined predicate that uses
the extended window max(days*5, 45) from the start; every matching
record is retained, when fewer than half the records match the whole
set is returned unchanged, and a record dated three weeks ago matches
the predicate for every lookback window. -/
theorem claim1_thm (now : Int) (jobs : List Job) (days : Nat)
    (hlen : 15 ≤ jobs.length) :
    (∀ j ∈ jobs, filterRecentPred now days j = true →
       j ∈ filter_recent_jobs now jobs days) ∧
    (2 * (jobs.filter (filterRecentPred now days)).length < jobs.length →
       filter_recent_jobs now jobs days = jobs) ∧
    (∀ j : Job, j.date = "3 weeks ago" → filterRecentPred now days j = true) := by
  refine ⟨?_, ?_, ?_⟩
  · intro j hj hpred
    simp only [filter_recent_jobs]
    split_ifs
    · exact hj
    · exact hj
    · exact hj
    · exact List.mem_filter.mpr ⟨hj, hpred⟩
  · intro hcut
    simp only [filter_recent_jobs]
    split_ifs <;> rfl
  · intro j hdate
    simp only [filterRecentPred, hdate]
    have hw : searchNumThen weekTail (pyLower ("3 weeks ago")).data = some 3 := by decide
    have harith : 3 ≤ max (days * 5) 45 / 7 :=
      le_trans (by decide) (Nat.div_le_div_right (le_max_right _ _))
    simp only [hw, decide_eq_true harith, Bool.or_true, Bool.true_or]

/-- C1 witness: the three-weeks-ago record of the counterexample set
is retained by the filter with a seven-day window. -/
theorem claim1_wit : mkC1Job ("t15") ("3 weeks ago") ∈ filter_recent_jobs 0 c1jobs 7 :=
  (claim1_thm 0 c1jobs 7 (by decide)).1 _ (by decide)
    ((claim1_thm 0 c1jobs 7 (by decide)).2.2 _ rfl)

/-! ## Claim C5: the ranker is not stable -/

theorem insertAscBy_perm {α : Type} (key : α → Int) (x : α) (l : List α) :
    (insertAscBy key x l).Perm (x :: l) := by
  induction l with
  | nil => exact List.Perm.refl _
  | cons y ys ih =>
    simp only [insertAscBy]
    split
    · exact (ih.cons y).trans (List.Perm.swap x y ys)
    · exact List.Perm.refl _

theorem insertAscBy_sorted {α : Type} (key : α → Int) (x : α) {l : List α}
    (h : l.Pairwise fun a b => key a ≤ key b) :
    (insertAscBy key x l).Pairwise fun a b => key a ≤ key b := by
  induction l with
  | nil => simp [insertAscBy]
  | cons y ys ih =>
    simp only [insertAscBy]
    split
    · rename_i hyx
      rcases List.pairwise_cons.mp h with ⟨hy, hys⟩
      refine List.Pairwise.cons ?_ (ih hys)
      intro z hz
      rcases List.mem_cons.mp (((insertAscBy_perm key x ys).mem_iff).mp hz) with hzx | hzys
      · subst hzx; exact hyx
      · exact hy z hzys
    · rename_i hyx
      refine List.Pairwise.cons ?_ h
      intro z hz
      have hxy : key x ≤ key y := le_of_not_le hyx
      rcases List.mem_cons.mp hz with hzy | hzys
      · subst hzy; exact hxy
      · exact le_trans hxy ((List.pairwise_cons.mp h).1 z hzys)

theorem stableAscBy_perm {α : Type} (key : α → Int) (l : List α) :
    (stableAscBy key l).Perm l := by
  suffices h : ∀ acc : List α,
      (List.foldl (fun acc x => insertAscBy key x acc) acc l).Perm (acc ++ l) by
    simpa using h []
  induction l with
  | nil => intro acc; simp
  | cons x xs ih =>
    intro acc
    simp only [List.foldl_cons]
    refine (ih _).trans ?_
    refine (List.Perm.append_right xs ((insertAscBy_perm key x acc))).trans ?_
    exact List.perm_middle.symm

theorem stableAscBy_sorted {α : Type} (key : α → Int) (l : List α) :
    (stableAscBy key l).Pairwise fun a b => key a ≤ key b := by
  suffices h : ∀ acc : List α, (acc.Pairwise fun a b => key a ≤ key b) →
      (List.foldl (fun acc x => insertAscBy key x acc) acc l).Pairwise
        fun a b => key a ≤ key b by
    exact h [] (by simp)
  induction l with
  | nil => intro acc hacc; simpa using hacc
  | cons x xs ih =>
    intro acc hacc
    simp only [List.foldl_cons]
    exact ih _ (insertAscBy_sorted key x hacc)

/-- C5 counterexample: two distinct records with equal recency scores
come back in reversed order, so the sort is not stable in the claimed
sense. -/
theorem claim5_cx :
    sort_jobs_by_date [c5a, c5b] = [c5b, c5a] ∧
    recency_score c5a.date = recency_score c5b.date ∧
    ([c5b, c5a] : List Job) ≠ [c5a, c5b] := by
  refine ⟨by decide, by decide, by decide⟩

/-- C5 amended: the ranker produces a permutation of its input sorted
descending by recency score, but it is not stable: pandas implements
the descending sort as the reverse of a stable ascending argsort, so
two equal-score records always come back in reversed order. -/
theorem claim5_thm :
    (∀ jobs : List Job,
       (sort_jobs_by_date jobs).Perm jobs ∧
       (sort_jobs_by_date jobs).Pairwise
         (fun a b => recency_score b.date ≤ recency_score a.date)) ∧
    (∀ a b : Job, recency_score a.date = recency_score b.date →
       sort_jobs_by_date [a, b] = [b, a]) := by
  constructor
  · intro jobs
    constructor
    · unfold sort_jobs_by_date
      split
      · exact List.Perm.refl _
      · exact (List.reverse_perm _).trans (stableAscBy_perm _ jobs)
    · unfold sort_jobs_by_date
      split
      · rename_i hlen
        rw [List.length_eq_zero.mp hlen]
        simp
      · rw [List.pairwise_reverse]
        exact stableAscBy_sorted _ jobs
  · intro a b h
    have hord : recency_score a.date ≤ recency_score b.date := le_of_eq h
    simp only [sort_jobs_by_date, stableAscBy, List.foldl_cons, List.foldl_nil,
      insertAscBy, if_pos hord]
    rfl

/-- C5 witness: the tie-reversal applied to the two concrete
equal-score records. -/
theorem claim5_wit : sort_jobs_by_date [c5a, c5b] = [c5b, c5a] :=
  claim5_thm.2 c5a c5b (by decide)

/-! ## Claim C3: idempotence machinery for the parenthesis stripper -/

theorem noPair_nil : noPair [] := by
  intro a b c h
  exact absurd h (by simp)

theorem noPair_cons_of_ne {c : Char} {l : List Char} (hc : c ≠ ('(')) (hl : noPair l) :
    noPair (c :: l) := by
  intro a b γ heq
  cases a with
  | nil =>
    rw [List.nil_append, List.cons_append] at heq
    injection heq with h1 h2
    exact absurd h1 hc
  | cons d a' =>
    rw [List.cons_append, List.cons_append] at heq
    injection heq with h1 h2
    exact hl a' b γ h2

theorem noPair_cons_open {l : List Char} (hne : noCloseEarly l) (hl : noPair l) :
    noPair (('(') :: l) := by
  intro a b γ heq
  cases a with
  | nil =>
    rw [List.nil_append, List.cons_append] at heq
    injection heq with h1 h2
    exact hne b γ h2
  | cons d a' =>
    rw [List.cons_append, List.cons_append] at heq
    injection heq with h1 h2
    exact hl a' b γ h2

theorem noPair_tail {c : Char} {l : List Char} (h : noPair (c :: l)) : noPair l := by
  intro a b γ heq
  exact h (c :: a) b γ (by simp [heq])

theorem noPair_head_noCloseEarly {l : List Char} (h : noPair (('(') :: l)) :
    noCloseEarly l := by
  intro b c heq
  exact h [] b c (by simp [heq])

theorem noPair_of_no_close {l : List Char} (h : (')') ∉ l) : noPair l := by
  intro a b γ heq
  apply absurd _ h
  rw [heq]
  exact List.mem_append_right _ (List.mem_cons_self _ _)

theorem noCloseEarly_append_newline {y : List Char} :
    ∀ x : List Char, (')') ∉ x → noCloseEarly (x ++ ('\n') :: y) := by
  intro x
  induction x with
  | nil =>
    intro _ b c heq
    cases b with
    | nil =>
      simp only [List.nil_append, List.cons.injEq] at heq
      exact absurd heq.1 (by decide)
    | cons d b' =>
      simp only [List.nil_append, List.cons_append, List.cons.injEq] at heq
      rw [← heq.1]
      exact List.mem_cons_self _ _
  | cons e x' ih =>
    intro hx b c heq
    have he : e ≠ (')') := fun h => hx (by simp [h])
    have hx' : (')') ∉ x' := fun hm => hx (List.mem_cons_of_mem _ hm)
    cases b with
    | nil =>
      simp only [List.cons_append, List.nil_append, List.cons.injEq] at heq
      exact absurd heq.1 he
    | cons d b' =>
      simp only [List.cons_append, List.cons.injEq] at heq
      exact List.mem_cons_of_mem _ (ih hx' b' c heq.2)

theorem noPair_append_newline {y : List Char} (hy : noPair y) :
    ∀ x : List Char, (')') ∉ x → noPair (x ++ ('\n') :: y) := by
  intro x
  induction x with
  | nil =>
    intro _
    exact noPair_cons_of_ne (by decide) hy
  | cons d x' ih =>
    intro hx
    have hx' : (')') ∉ x' := fun hm => hx (List.mem_cons_of_mem _ hm)
    rw [List.cons_append]
    by_cases hdo : d = ('(')
    · subst hdo
      exact noPair_cons_open (noCloseEarly_append_newline x' hx') (ih hx')
    · exact noPair_cons_of_ne hdo (ih hx')

theorem noPair_append_right {v : List Char} :
    ∀ u : List Char, noPair (u ++ v) → noPair v := by
  intro u
  induction u with
  | nil => exact fun h => h
  | cons d u' ih =>
    intro h
    rw [List.cons_append] at h
    exact ih (noPair_tail h)

/-- How the pending state of the parenthesis scanner resolves: the
input either reaches a close parenthesis first (the buffer is
discarded), reaches a newline first (the buffer is flushed literally),
or ends with neither (the buffer is emitted). -/
theorem rpGo_pending : ∀ l buf : List Char,
    (∃ p rest, l = p ++ (')') :: rest ∧ (')') ∉ p ∧ ('\n') ∉ p ∧
       rpGo l (some buf) = rpGo rest none) ∨
    (∃ p rest, l = p ++ ('\n') :: rest ∧ (')') ∉ p ∧ ('\n') ∉ p ∧
       rpGo l (some buf) = (buf ++ p) ++ ('\n') :: rpGo rest none) ∨
    ((')') ∉ l ∧ ('\n') ∉ l ∧ rpGo l (some buf) = buf ++ l) := by
  intro l
  induction l with
  | nil =>
    intro buf
    right; right
    exact ⟨by simp, by simp, by simp [rpGo]⟩
  | cons c cs ih =>
    intro buf
    by_cases hc : c = (')')
    · left
      exact ⟨[], cs, by simp [hc], by simp, by simp, by simp [rpGo, hc]⟩
    · by_cases hn : c = ('\n')
      · right; left
        exact ⟨[], cs, by simp [hn], by simp, by simp, by simp [rpGo, hc, hn]⟩
      · have step : rpGo (c :: cs) (some buf) = rpGo cs (some (buf ++ [c])) := by
          simp [rpGo, hc, hn]
        rcases ih (buf ++ [c]) with ⟨p, rest, heq, hp1, hp2, hres⟩ |
          ⟨p, rest, heq, hp1, hp2, hres⟩ | ⟨h1, h2, hres⟩
        · left
          refine ⟨c :: p, rest, by simp [heq], ?_, ?_, by rw [step, hres]⟩
          · intro hm
            rcases List.mem_cons.mp hm with h | h
            · exact hc h.symm
            · exact hp1 h
          · intro hm
            rcases List.mem_cons.mp hm with h | h
            · exact hn h.symm
            · exact hp2 h
        · right; left
          refine ⟨c :: p, rest, by simp [heq], ?_, ?_, ?_⟩
          · intro hm
            rcases List.mem_cons.mp hm with h | h
            · exact hc h.symm
            · exact hp1 h
          · intro hm
            rcases List.mem_cons.mp hm with h | h
            · exact hn h.symm
            · exact hp2 h
          · rw [step, hres]
            simp
        · right; right
          refine ⟨?_, ?_, ?_⟩
          · intro hm
            rcases List.mem_cons.mp hm with h | h
            · exact hc h.symm
            · exact h1 h
          · intro hm
            rcases List.mem_cons.mp hm with h | h
            · exact hn h.symm
            · exact h2 h
          · rw [step, hres]
            simp

/-- The output of the parenthesis stripper never contains a matchable
open-close pair. -/
theorem rpGo_noPair : ∀ n : Nat, ∀ l : List Char, l.length ≤ n → noPair (rpGo l none) := by
  intro n
  induction n with
  | zero =>
    intro l hl
    have h0 : l = [] := List.length_eq_zero.mp (Nat.le_zero.mp hl)
    subst h0
    simpa [rpGo] using noPair_nil
  | succ n ih =>
    intro l hl
    cases l with
    | nil => simpa [rpGo] using noPair_nil
    | cons c cs =>
      have hcs : cs.length ≤ n := by simpa using hl
      by_cases hc : c = ('(')
      · subst hc
        have step : rpGo (('(') :: cs) none = rpGo cs (some [('(')]) := by simp [rpGo]
        rw [step]
        rcases rpGo_pending cs ([('(')]) with ⟨p, rest, heq, hp1, hp2, hres⟩ |
          ⟨p, rest, heq, hp1, hp2, hres⟩ | ⟨h1, h2, hres⟩
        · rw [hres]
          apply ih
          have : rest.length < cs.length := by rw [heq]; simp only [List.length_append, List.length_cons]; omega
          omega
        · rw [hres]
          have hrest : noPair (rpGo rest none) := by
            apply ih
            have : rest.length < cs.length := by rw [heq]; simp only [List.length_append, List.length_cons]; omega
            omega
          apply noPair_append_newline hrest
          intro hm
          rcases List.mem_append.mp hm with h | h
          · exact absurd h (by decide)
          · exact hp1 h
        · rw [hres]
          apply noPair_of_no_close
          intro hm
          rcases List.mem_append.mp hm with h | h
          · exact absurd h (by decide)
          · exact h1 h
      · have step : rpGo (c :: cs) none = c :: rpGo cs none := by simp [rpGo, hc]
        rw [step]
        exact noPair_cons_of_ne hc (ih cs hcs)

/-- A string without a matchable pair is a fixed point of the
parenthesis stripper. -/
theorem rpGo_fix : ∀ n : Nat, ∀ l : List Char, l.length ≤ n → noPair l →
    rpGo l none = l := by
  intro n
  induction n with
  | zero =>
    intro l hl _
    have h0 : l = [] := List.length_eq_zero.mp (Nat.le_zero.mp hl)
    subst h0
    simp [rpGo]
  | succ n ih =>
    intro l hl hnp
    cases l with
    | nil => simp [rpGo]
    | cons c cs =>
      have hcs : cs.length ≤ n := by simpa using hl
      by_cases hc : c = ('(')
      · subst hc
        have hne : noCloseEarly cs := noPair_head_noCloseEarly hnp
        have step : rpGo (('(') :: cs) none = rpGo cs (some [('(')]) := by simp [rpGo]
        rw [step]
        rcases rpGo_pending cs ([('(')]) with ⟨p, rest, heq, hp1, hp2, hres⟩ |
          ⟨p, rest, heq, hp1, hp2, hres⟩ | ⟨h1, h2, hres⟩
        · exact absurd (hne p rest heq) hp2
        · rw [hres]
          have hrest_np : noPair rest := by
            have htail : noPair cs := noPair_tail hnp
            rw [heq] at htail
            exact noPair_tail (noPair_append_right p htail)
          have hfix : rpGo rest none = rest := by
            apply ih
            · have : rest.length < cs.length := by rw [heq]; simp only [List.length_append, List.length_cons]; omega
              omega
            · exact hrest_np
          rw [hfix, heq]
          simp
        · rw [hres]
          simp
      · have step : rpGo (c :: cs) none = c :: rpGo cs none := by simp [rpGo, hc]
        rw [step, ih cs hcs (noPair_tail hnp)]

theorem noPair_within {x l : List Char} (hl : noPair l) (hinf : x <:+: l) : noPair x := by
  obtain ⟨s, t, hst⟩ := hinf
  intro a b γ heq
  apply hl (s ++ a) b (γ ++ t)
  rw [← hst, heq]
  simp [List.append_assoc]

/-! ## Strip idempotence and field lemmas -/

theorem dropWhile_idem (p : Char → Bool) (l : List Char) :
    List.dropWhile p (List.dropWhile p l) = List.dropWhile p l := by
  induction l with
  | nil => rfl
  | cons c cs ih =>
    by_cases h : p c = true
    · rw [List.dropWhile_cons_of_pos h, ih]
    · rw [List.dropWhile_cons_of_neg h, List.dropWhile_cons_of_neg h]

theorem dropWhile_head_not {p : Char → Bool} :
    ∀ {l : List Char} {c : Char}, (List.dropWhile p l).head? = some c → p c = false := by
  intro l
  induction l with
  | nil => intro c h; simp at h
  | cons d ds ih =>
    intro c h
    by_cases hd : p d = true
    · rw [List.dropWhile_cons_of_pos hd] at h
      exact ih h
    · rw [List.dropWhile_cons_of_neg hd] at h
      simp only [List.head?_cons, Option.some.injEq] at h
      rw [← h]
      exact Bool.eq_false_iff.mpr hd

theorem pyStripL_within (l : List Char) : pyStripL l <:+: l := by
  unfold pyStripL
  refine ⟨List.takeWhile isSpaceC l,
    (List.takeWhile isSpaceC (List.dropWhile isSpaceC l).reverse).reverse, ?_⟩
  have h2 := List.takeWhile_append_dropWhile isSpaceC (List.dropWhile isSpaceC l).reverse
  have h3 := congrArg List.reverse h2
  rw [List.reverse_append, List.reverse_reverse] at h3
  conv_rhs => rw [← List.takeWhile_append_dropWhile isSpaceC l, ← h3]
  rw [List.append_assoc]

theorem dropWhile_pyStripL (l : List Char) :
    List.dropWhile isSpaceC (pyStripL l) = pyStripL l := by
  cases hu : pyStripL l with
  | nil => simp
  | cons c cs =>
    have hhead : (pyStripL l).head? = some c := by rw [hu]; rfl
    have hlast : (List.dropWhile isSpaceC (List.dropWhile isSpaceC l).reverse).getLast?
        = some c := by
      rw [← List.head?_reverse]
      show (pyStripL l).head? = some c
      exact hhead
    have hne : List.dropWhile isSpaceC (List.dropWhile isSpaceC l).reverse ≠ [] := by
      intro h0; rw [h0] at hlast; simp at hlast
    have hsame : (List.dropWhile isSpaceC (List.dropWhile isSpaceC l).reverse).getLast?
        = (List.dropWhile isSpaceC l).reverse.getLast? := by
      conv_rhs => rw [← List.takeWhile_append_dropWhile isSpaceC
        (List.dropWhile isSpaceC l).reverse]
      rw [List.getLast?_append_of_ne_nil _ hne]
    have hfirst : (List.dropWhile isSpaceC l).head? = some c := by
      rw [← List.getLast?_reverse, ← hsame, hlast]
    have hc : isSpaceC c = false := dropWhile_head_not hfirst
    rw [List.dropWhile_cons_of_neg (by rw [hc]; simp)]

theorem pyStripL_idem (l : List Char) : pyStripL (pyStripL l) = pyStripL l := by
  have hrev : (pyStripL l).reverse
      = List.dropWhile isSpaceC (List.dropWhile isSpaceC l).reverse := by
    unfold pyStripL
    rw [List.reverse_reverse]
  show (List.dropWhile isSpaceC
    (List.dropWhile isSpaceC (pyStripL l)).reverse).reverse = pyStripL l
  rw [dropWhile_pyStripL, hrev, dropWhile_idem, ← hrev, List.reverse_reverse]

theorem cleanCompany_idem (s : String) : cleanCompany (cleanCompany s) = cleanCompany s := by
  unfold cleanCompany pyStripS
  show String.mk (pyStripL (rpGo (pyStripL (rpGo s.data none)) none)) = _
  have hnp : noPair (rpGo s.data none) := rpGo_noPair _ _ (le_refl _)
  have hnp2 : noPair (pyStripL (rpGo s.data none)) :=
    noPair_within hnp (pyStripL_within _)
  rw [rpGo_fix _ _ (le_refl _) hnp2, pyStripL_idem]

theorem commaSpace_no_comma {l : List Char} (h : (',') ∉ l) : commaSpace l = l := by
  induction l with
  | nil => rfl
  | cons c cs ih =>
    have hc : c ≠ (',') := fun hx => h (by simp [hx])
    have hcs : (',') ∉ cs := fun hm => h (List.mem_cons_of_mem _ hm)
    simp only [commaSpace, List.flatMap_cons, if_neg hc]
    show [c] ++ commaSpace cs = c :: cs
    rw [ih hcs]
    rfl

theorem cleanLocation_idem {s : String} (h : (',') ∉ s.data) :
    cleanLocation (cleanLocation s) = cleanLocation s := by
  unfold cleanLocation pyStripS
  show String.mk (pyStripL (commaSpace (pyStripL (commaSpace s.data)))) = _
  rw [commaSpace_no_comma h]
  have h2 : (',') ∉ pyStripL s.data := fun hm => h ((pyStripL_within _).subset hm)
  rw [commaSpace_no_comma h2, pyStripL_idem]

theorem enrichJob_title (j : Job) : (enrichJob j).title = j.title := rfl

theorem enrichJob_date (j : Job) : (enrichJob j).date = j.date := rfl

theorem enrichJob_source (j : Job) : (enrichJob j).source = j.source := rfl

theorem enrichJob_company (j : Job) : (enrichJob j).company = cleanCompany j.company := rfl

theorem enrichJob_location (j : Job) : (enrichJob j).location = cleanLocation j.location := rfl

theorem string_ne_empty_of_length {s : String} (h : 10 ≤ s.length) : s ≠ "" := by
  intro h0
  rw [h0] at h
  exact absurd h (by decide)

theorem isPrefixOf_append_self (a : List Char) : ∀ y : List Char, a.isPrefixOf (a ++ y) = true := by
  intro y
  rw [ List.isPrefixOf_iff_prefix]
  exact ⟨y, rfl⟩

theorem startsWith_append_right {s pre : String} (h : pyStartsWith s pre = true)
    (x : String) : pyStartsWith (s ++ x) pre = true := by
  unfold pyStartsWith at h ⊢
  rw [String.data_append]
  rw [ List.isPrefixOf_iff_prefix] at h ⊢
  exact h.trans (List.prefix_append _ _)

theorem fallbackLink_valid (j : Job) :
    pyStartsWith (fallbackLink j) ("https://") = true ∧ 10 ≤ (fallbackLink j).length := by
  unfold fallbackLink
  split_ifs
  · constructor
    · iterate 5 apply startsWith_append_right
      decide
    · simp only [String.length_append,
        show ("https://in.indeed.com/jobs?q=").length = 29 from by decide]
      omega
  · constructor
    · iterate 3 apply startsWith_append_right
      decide
    · simp only [String.length_append,
        show ("https://www.naukri.com/jobs-in-").length = 31 from by decide]
      omega
  · constructor
    · iterate 3 apply startsWith_append_right
      decide
    · simp only [String.length_append,
        show ("https://www.linkedin.com/jobs/search/?keywords=").length = 47 from by decide]
      omega
  · constructor
    · iterate 3 apply startsWith_append_right
      decide
    · simp only [String.length_append,
        show ("https://www.foundit.in/srp/results?keyword=").length = 43 from by decide]
      omega
  · constructor
    · iterate 5 apply startsWith_append_right
      decide
    · simp only [String.length_append,
        show ("https://www.google.com/search?q=").length = 32 from by decide]
      omega

theorem enriched_link_valid (j : Job) :
    (pyStartsWith (enrichJob j).link ("http://") = true ∨
     pyStartsWith (enrichJob j).link ("https://") = true) ∧
    10 ≤ (enrichJob j).link.length := by
  show (pyStartsWith (enrichLink2 { j with link := enrichLink1 j.link }) ("http://") = true ∨
     pyStartsWith (enrichLink2 { j with link := enrichLink1 j.link }) ("https://") = true) ∧
    10 ≤ (enrichLink2 { j with link := enrichLink1 j.link }).length
  unfold enrichLink2
  split_ifs with hcase
  · have hv := fallbackLink_valid { j with link := enrichLink1 j.link }
    exact ⟨Or.inr hv.1, hv.2⟩
  · push_neg at hcase
    obtain ⟨hne, hlen⟩ := hcase
    constructor
    · show _ ∨ pyStartsWith (enrichLink1 j.link) ("https://") = true
      unfold enrichLink1
      unfold enrichLink1 at hne
      split_ifs with hcond
      · exact hcond.2
      · exact absurd rfl (by split_ifs at hne; exact hne)
    · omega

/-! ## Claim C2: normalization defaults -/

/-- C2 counterexample: a record with present-but-empty location and
date and a fully parenthesized company survives normalization with
empty company, location and date: fillna touches only missing values
and the company cleanup can empty the field, so not every normalized
field is non-empty. -/
theorem claim2_cx :
    normalizeFull c2raw = some c2out ∧ c2out.company = "" ∧ c2out.location = "" ∧
    c2out.date = "" := by
  refine ⟨by decide, by decide, by decide, by decide⟩

/-- C2 amended: a record surviving normalization has a non-empty title
and a non-empty link (repaired or synthesized); company, location and
date receive their documented defaults only when the raw value is
missing, while empty strings pass through and a fully parenthesized
company is emptied by cleanup. -/
theorem claim2_thm (r : RawJob) (j : Job) (h : normalizeFull r = some j) :
    j.title ≠ "" ∧ j.link ≠ "" ∧
    (r.company = none → j.company = "Unknown") ∧
    (r.location = none → j.location = "Bangalore") ∧
    (r.date = none → j.date = "Recent") := by
  unfold normalizeFull normalizeRecord at h
  cases hT : r.title with
  | none => rw [hT] at h; simp at h
  | some t =>
    rw [hT] at h
    simp only [Option.map] at h
    by_cases ht : t = ""
    · rw [if_pos ht] at h
      simp at h
    · rw [if_neg ht] at h
      simp only [Option.map_some] at h
      injection h with hj
      refine ⟨?_, ?_, ?_, ?_, ?_⟩
      · rw [← hj, enrichJob_title]
        exact ht
      · rw [← hj]
        exact string_ne_empty_of_length (enriched_link_valid _).2
      · intro hc
        rw [← hj, enrichJob_company, hc]
        show cleanCompany ((none : Option String).getD ("Unknown")) = ("Unknown")
        decide
      · intro hc
        rw [← hj, enrichJob_location, hc]
        show cleanLocation ((none : Option String).getD ("Bangalore")) = ("Bangalore")
        decide
      · intro hc
        rw [← hj, enrichJob_date, hc]
        rfl

/-- C2 witness: the fully-missing raw record takes all three defaults
and a synthesized Indeed link. -/
theorem claim2_wit :
    c2outDefaults.link ≠ "" ∧ c2outDefaults.company = "Unknown" ∧
    c2outDefaults.location = "Bangalore" ∧ c2outDefaults.date = "Recent" :=
  have h := claim2_thm c2rawDefaults c2outDefaults (by decide)
  ⟨h.2.1, h.2.2.1 rfl, h.2.2.2.1 rfl, h.2.2.2.2 rfl⟩

/-! ## Claim C3: idempotence of enrichment -/

theorem job_eq_of_fields {a b : Job} (h1 : a.title = b.title) (h2 : a.company = b.company)
    (h3 : a.location = b.location) (h4 : a.date = b.date) (h5 : a.link = b.link)
    (h6 : a.source = b.source) : a = b := by
  cases a; cases b; simp_all

theorem enrichJob_link_fix (j : Job) :
    (enrichJob (enrichJob j)).link = (enrichJob j).link := by
  have hv := enriched_link_valid j
  have hne : (enrichJob j).link ≠ "" := string_ne_empty_of_length hv.2
  show enrichLink2 { enrichJob j with link := enrichLink1 (enrichJob j).link }
      = (enrichJob j).link
  have h1 : enrichLink1 (enrichJob j).link = (enrichJob j).link := by
    unfold enrichLink1
    rw [if_pos ⟨hne, hv.1⟩]
  rw [h1]
  show enrichLink2 (enrichJob j) = (enrichJob j).link
  unfold enrichLink2
  rw [if_neg]
  push_neg
  exact ⟨hne, by omega⟩

/-- C3 counterexample: a record whose location contains a comma is not
a fixed point of a second enrichment pass, because the comma-spacing
cleanup inserts a further space after the comma each time it runs. -/
theorem claim3_cx : enrichJob (enrichJob c3job) ≠ enrichJob c3job := by decide

/-- C3 amended: enrichment is idempotent on the link, company, title,
date and source fields of every record, and idempotent on the whole
record exactly when no comma survives in the location; a location with
a comma gains one extra space per pass. -/
theorem claim3_thm (j : Job) :
    (enrichJob (enrichJob j)).title = (enrichJob j).title ∧
    (enrichJob (enrichJob j)).company = (enrichJob j).company ∧
    (enrichJob (enrichJob j)).date = (enrichJob j).date ∧
    (enrichJob (enrichJob j)).link = (enrichJob j).link ∧
    (enrichJob (enrichJob j)).source = (enrichJob j).source ∧
    ((',') ∉ j.location.data → enrichJob (enrichJob j) = enrichJob j) := by
  refine ⟨rfl, ?_, rfl, enrichJob_link_fix j, rfl, ?_⟩
  · rw [enrichJob_company, enrichJob_company, cleanCompany_idem]
  · intro hcom
    refine job_eq_of_fields rfl ?_ ?_ rfl (enrichJob_link_fix j) rfl
    · rw [enrichJob_company, enrichJob_company, cleanCompany_idem]
    · rw [enrichJob_location, enrichJob_location, cleanLocation_idem hcom]

/-- C3 witness: a comma-free record is a fixed point of the second
enrichment pass. -/
theorem claim3_wit : enrichJob (enrichJob c3plain) = enrichJob c3plain :=
  (claim3_thm c3plain).2.2.2.2.2 (by decide)

/-! ## Claim C9: the orchestrator leaves its input frame untouched -/

theorem frameInv_trans {h0 : Heap} {a : Nat} {s t : Heap × Nat}
    (h1 : FrameInv h0 a s) (h2 : FrameInv s.1 a t) : FrameInv h0 a t :=
  ⟨h2.1.trans h1.1, le_trans h1.2.1 h2.2.1, h2.2.2⟩

theorem frameInv_refl {h0 : Heap} {a x : Nat} (hx : x ≠ a) : FrameInv h0 a (h0, x) :=
  ⟨rfl, le_refl _, hx⟩

theorem getElem?_writeH {h : Heap} {x a : Nat} (f : Frame) (hx : x ≠ a) :
    (writeH h x f)[a]? = h[a]? :=
  List.getElem?_set_ne hx

theorem length_writeH (h : Heap) (x : Nat) (f : Frame) :
    (writeH h x f).length = h.length :=
  List.length_set _ _ _

theorem allocH_frame (h : Heap) (f : Frame) {a : Nat} (ha : a < h.length) :
    FrameInv h a (allocH h f) := by
  refine ⟨List.getElem?_append_left ha, by simp [allocH], ?_⟩
  show h.length ≠ a
  omega

theorem enrichH_frame {h : Heap} {x a : Nat} (hx : x ≠ a) :
    FrameInv h a (enrichH h x) := by
  unfold enrichH
  split_ifs
  · exact frameInv_refl hx
  · exact ⟨by
      show (writeH (writeH (writeH (writeH h x _) x _) x _) x _)[a]? = h[a]?
      rw [getElem?_writeH _ hx, getElem?_writeH _ hx, getElem?_writeH _ hx,
        getElem?_writeH _ hx],
     by
      show h.length ≤ (writeH (writeH (writeH (writeH h x _) x _) x _) x _).length
      rw [length_writeH, length_writeH, length_writeH, length_writeH],
     hx⟩

theorem alloc2_umbrella (h W : Heap) {a : Nat} (ha : a < h.length)
    (hget : W[a]? = h[a]?) (hlen : W.length = h.length) (fA fB : Frame) :
    FrameInv h a (allocH (allocH W fA).1 fB) := by
  refine ⟨?_, ?_, ?_⟩
  · show ((W ++ [fA]) ++ [fB])[a]? = h[a]?
    rw [List.getElem?_append_left (show a < (W ++ [fA]).length from by
        simp only [List.length_append, List.length_cons, List.length_nil]; omega),
      List.getElem?_append_left (show a < W.length from by omega), hget]
  · show h.length ≤ ((W ++ [fA]) ++ [fB]).length
    simp only [List.length_append, List.length_cons, List.length_nil]
    omega
  · show (W ++ [fA]).length ≠ a
    simp only [List.length_append, List.length_cons, List.length_nil]
    omega

theorem removeDupH_frame {h : Heap} {x a : Nat} (hx : x ≠ a) (ha : a < h.length) :
    FrameInv h a (removeDupH h x) := by
  simp only [removeDupH]
  split_ifs
  · exact frameInv_refl hx
  · apply alloc2_umbrella _ _ ha
    · rw [getElem?_writeH _ hx, getElem?_writeH _ hx]
    · rw [length_writeH, length_writeH]

theorem kwFilterH_frame {h : Heap} {x a : Nat} (kw : List String) (hx : x ≠ a)
    (ha : a < h.length) : FrameInv h a (kwFilterH h x kw) := by
  simp only [kwFilterH]
  split_ifs <;> first | exact frameInv_refl hx | exact allocH_frame _ _ ha

theorem locFilterH_frame {h : Heap} {x a : Nat} (lo : List String) (hx : x ≠ a)
    (ha : a < h.length) : FrameInv h a (locFilterH h x lo) := by
  simp only [locFilterH]
  split_ifs <;> first | exact frameInv_refl hx | exact allocH_frame _ _ ha

theorem recFilterH_frame {h : Heap} {x a : Nat} (now : Int) (rd : Nat) (hx : x ≠ a)
    (ha : a < h.length) : FrameInv h a (recFilterH h x now rd) := by
  simp only [recFilterH]
  split_ifs <;> first | exact frameInv_refl hx | exact allocH_frame _ _ ha

theorem sortH_frame {h : Heap} {x a : Nat} (hx : x ≠ a) (ha : a < h.length) :
    FrameInv h a (sortH h x) := by
  simp only [sortH]
  split_ifs
  · exact frameInv_refl hx
  · have h1 : FrameInv h a (writeH h x ((readH h x).map fun r =>
        { r with rscore := some (recency_score (r.date.getD (""))) }), x) :=
      ⟨getElem?_writeH _ hx, le_of_eq (length_writeH _ _ _).symm, hx⟩
    have ha1 : a < (writeH h x ((readH h x).map fun r =>
        { r with rscore := some (recency_score (r.date.getD (""))) })).length := by
      rw [length_writeH]; exact ha
    exact frameInv_trans h1 (allocH_frame _ _ ha1)

theorem copy_umbrella (h : Heap) {a : Nat} (ha : a < h.length)
    (f0 f1 f2 f3 fB : Frame) :
    FrameInv h a (allocH (writeH (writeH (writeH (allocH h f0).1 (allocH h f0).2 f1)
      (allocH h f0).2 f2) (allocH h f0).2 f3) fB) := by
  have hc : (allocH h f0).2 ≠ a := by
    show h.length ≠ a
    omega
  have hW : (writeH (writeH (writeH (allocH h f0).1 (allocH h f0).2 f1)
      (allocH h f0).2 f2) (allocH h f0).2 f3)[a]? = h[a]? := by
    rw [getElem?_writeH _ hc, getElem?_writeH _ hc, getElem?_writeH _ hc]
    exact List.getElem?_append_left ha
  have hWlen : (writeH (writeH (writeH (allocH h f0).1 (allocH h f0).2 f1)
      (allocH h f0).2 f2) (allocH h f0).2 f3).length = h.length + 1 := by
    rw [length_writeH, length_writeH, length_writeH]
    simp only [allocH, List.length_append, List.length_cons, List.length_nil]
  refine ⟨?_, ?_, ?_⟩
  · show ((writeH (writeH (writeH (allocH h f0).1 (allocH h f0).2 f1)
      (allocH h f0).2 f2) (allocH h f0).2 f3) ++ [fB])[a]? = h[a]?
    rw [List.getElem?_append_left (show a < _ from by rw [hWlen]; omega), hW]
  · show h.length ≤ ((writeH (writeH (writeH (allocH h f0).1 (allocH h f0).2 f1)
      (allocH h f0).2 f2) (allocH h f0).2 f3) ++ [fB]).length
    simp only [List.length_append, List.length_cons, List.length_nil]
    omega
  · show (writeH (writeH (writeH (allocH h f0).1 (allocH h f0).2 f1)
      (allocH h f0).2 f2) (allocH h f0).2 f3).length ≠ a
    omega

theorem copyFillH_frame {h : Heap} {a : Nat} (ha : a < h.length) :
    FrameInv h a (copyFillH h a) := by
  simp only [copyFillH]
  exact copy_umbrella h ha _ _ _ _ _

theorem enrichS_frame {a : Nat} {s : Heap × Nat} (hx : s.2 ≠ a) :
    FrameInv s.1 a (enrichS s) := enrichH_frame hx

theorem removeDupS_frame {a : Nat} {s : Heap × Nat} (hx : s.2 ≠ a)
    (ha : a < s.1.length) : FrameInv s.1 a (removeDupS s) := removeDupH_frame hx ha

theorem kwStageH_frame (kw : List String) {a : Nat} {s : Heap × Nat} (hx : s.2 ≠ a)
    (ha : a < s.1.length) : FrameInv s.1 a (kwStageH kw s) := by
  show FrameInv s.1 a (if kw ≠ [] ∧ 20 ≤ (readH s.1 s.2).length then
    (if max 30 (readH (kwFilterH s.1 s.2 kw).1 s.2).length
        ≤ 2 * (readH (kwFilterH s.1 s.2 kw).1 (kwFilterH s.1 s.2 kw).2).length
     then kwFilterH s.1 s.2 kw else ((kwFilterH s.1 s.2 kw).1, s.2))
    else s)
  by_cases h1 : kw ≠ [] ∧ 20 ≤ (readH s.1 s.2).length
  · rw [if_pos h1]
    by_cases h2 : max 30 (readH (kwFilterH s.1 s.2 kw).1 s.2).length
        ≤ 2 * (readH (kwFilterH s.1 s.2 kw).1 (kwFilterH s.1 s.2 kw).2).length
    · rw [if_pos h2]
      exact kwFilterH_frame kw hx ha
    · rw [if_neg h2]
      exact ⟨(kwFilterH_frame kw hx ha (a := a)).1,
        (kwFilterH_frame kw hx ha (a := a)).2.1, hx⟩
  · rw [if_neg h1]
    exact frameInv_refl hx

theorem locStageH_frame (lo : List String) {a : Nat} {s : Heap × Nat} (hx : s.2 ≠ a)
    (ha : a < s.1.length) : FrameInv s.1 a (locStageH lo s) := by
  show FrameInv s.1 a (if lo ≠ [] ∧ 20 ≤ (readH s.1 s.2).length then
    (if max 30 (readH (locFilterH s.1 s.2 lo).1 s.2).length
        ≤ 2 * (readH (locFilterH s.1 s.2 lo).1 (locFilterH s.1 s.2 lo).2).length
     then locFilterH s.1 s.2 lo else ((locFilterH s.1 s.2 lo).1, s.2))
    else s)
  by_cases h1 : lo ≠ [] ∧ 20 ≤ (readH s.1 s.2).length
  · rw [if_pos h1]
    by_cases h2 : max 30 (readH (locFilterH s.1 s.2 lo).1 s.2).length
        ≤ 2 * (readH (locFilterH s.1 s.2 lo).1 (locFilterH s.1 s.2 lo).2).length
    · rw [if_pos h2]
      exact locFilterH_frame lo hx ha
    · rw [if_neg h2]
      exact ⟨(locFilterH_frame lo hx ha (a := a)).1,
        (locFilterH_frame lo hx ha (a := a)).2.1, hx⟩
  · rw [if_neg h1]
    exact frameInv_refl hx

theorem recStageH_frame (now : Int) (rd : Nat) {a : Nat} {s : Heap × Nat} (hx : s.2 ≠ a)
    (ha : a < s.1.length) : FrameInv s.1 a (recStageH now rd s) := by
  unfold recStageH
  by_cases h1 : 20 ≤ (readH s.1 s.2).length
  · rw [if_pos h1]
    exact recFilterH_frame now rd hx ha
  · rw [if_neg h1]
    exact frameInv_refl hx

theorem sortStageH_frame (flag : Bool) {a : Nat} {s : Heap × Nat} (hx : s.2 ≠ a)
    (ha : a < s.1.length) : FrameInv s.1 a (sortStageH flag s) := by
  unfold sortStageH
  by_cases h1 : flag = true
  · rw [if_pos h1]
    exact sortH_frame hx ha
  · rw [if_neg h1]
    exact frameInv_refl hx

/-- C9: process_jobs does not modify the frame of the caller.  Over the
instrumented heap semantics, in which every pandas column assignment
is an explicit write and every fresh frame an allocation, the cell the
caller passed in holds exactly its original record list after the
call, for every heap, address and argument combination. -/
theorem claim9_thm (h : Heap) (a : Nat) (kw lo : List String) (rd : Nat)
    (flag : Bool) (now : Int) :
    ((processJobsH h a kw lo rd flag now).1)[a]? = h[a]? := by
  unfold processJobsH
  split_ifs with h0
  · rfl
  · have ha : a < h.length := by
      by_contra hge
      push_neg at hge
      apply h0
      unfold readH
      rw [List.getD_eq_getElem?_getD, List.getElem?_eq_none hge]
      rfl
    have i1 : FrameInv h a (copyFillH h a) := copyFillH_frame ha
    have i2 : FrameInv h a (enrichS (copyFillH h a)) :=
      frameInv_trans i1 (enrichS_frame i1.2.2)
    have i3 : FrameInv h a (removeDupS (enrichS (copyFillH h a))) :=
      frameInv_trans i2 (removeDupS_frame i2.2.2 (lt_of_lt_of_le ha i2.2.1))
    have i4 : FrameInv h a (kwStageH kw (removeDupS (enrichS (copyFillH h a)))) :=
      frameInv_trans i3 (kwStageH_frame kw i3.2.2 (lt_of_lt_of_le ha i3.2.1))
    have i5 : FrameInv h a (locStageH lo (kwStageH kw (removeDupS (enrichS
        (copyFillH h a))))) :=
      frameInv_trans i4 (locStageH_frame lo i4.2.2 (lt_of_lt_of_le ha i4.2.1))
    have i6 : FrameInv h a (recStageH now rd (locStageH lo (kwStageH kw (removeDupS
        (enrichS (copyFillH h a)))))) :=
      frameInv_trans i5 (recStageH_frame now rd i5.2.2 (lt_of_lt_of_le ha i5.2.1))
    have i7 : FrameInv h a (sortStageH flag (recStageH now rd (locStageH lo (kwStageH kw
        (removeDupS (enrichS (copyFillH h a))))))) :=
      frameInv_trans i6 (sortStageH_frame flag i6.2.2 (lt_of_lt_of_le ha i6.2.1))
    exact i7.1

